import Mathlib

/-!
Verification of the M5 evaluation code (`evaluate.py`) and the top-down
disaggregation step of `model1.py`.

Tensors are embedded as nested lists of rationals (idealised exact arithmetic
for the float computations).  A value of type `List (List ℚ)` is a
`duration × channels` series tensor, a `List (List (List ℚ))` is either a
`num_samples × duration × channels` prediction ensemble or (for the
batched helpers) a `series × duration × channels` data tensor; which one is
meant is noted at each definition.  Fallible tensor operations (shape errors,
index-out-of-bounds) are embedded with `Option`, `none` standing for the
runtime error.  The IEEE special values that the scale computation can
produce are embedded by the `FValQ` / `FValR` types below.
-/

/-- Mean of a list of rationals: sum divided by length.  For the empty list
this is `0 / 0 = 0` (ℚ convention); every use below either has a nonempty
list or does not care. -/
def listMean (l : List ℚ) : ℚ := l.sum / l.length

/-- `t.reshape(t.shape[:-2] + (-1,)).mean(-1)` for a batchless
`duration × channels` tensor: flatten the trailing two axes and take the
mean. -/
def flatMean (m : List (List ℚ)) : ℚ := listMean m.flatten

/-- Entry of a `duration × channels` matrix at time `t`, channel `d`
(0 outside the matrix; all uses are in-bounds). -/
def idxQ (m : List (List ℚ)) (t d : ℕ) : ℚ := (m.getD t []).getD d 0

/-- `torch.cumsum` along a single axis. -/
def cumsum : List ℚ → List ℚ
  | [] => []
  | x :: xs => x :: (cumsum xs).map (fun y => x + y)

/-- Insert into an ascending list, keeping it ascending. -/
def insertAsc (x : ℚ) : List ℚ → List ℚ
  | [] => [x]
  | y :: ys => if x ≤ y then x :: y :: ys else y :: insertAsc x ys

/-- `torch.sort` along a single axis (ascending), as an insertion sort. -/
def sortAsc : List ℚ → List ℚ
  | [] => []
  | x :: xs => insertAsc x (sortAsc xs)

/-- Broadcasting alignment of one tensor axis, following the torch rule:
equal lengths are zipped, an axis of size 1 is expanded against the other,
anything else is a shape error. -/
def bAlign {α : Type} (a b : List α) : Option (List (α × α)) :=
  if a.length = b.length then some (a.zip b)
  else
    match a, b with
    | [x], _ => some (b.map fun y => (x, y))
    | _, [y] => some (a.map fun x => (x, y))
    | _, _ => none

/-- Elementwise binary operation on two `duration × channels` tensors with
torch broadcasting on both trailing axes; `none` is the shape error. -/
def bZip2 (f : ℚ → ℚ → ℚ) (a b : List (List ℚ)) : Option (List (List ℚ)) := do
  let rows ← bAlign a b
  rows.mapM fun rr => (bAlign rr.1 rr.2).map (List.map fun p => f p.1 p.2)

/-- The list of sample values of a `num_samples × duration × channels`
ensemble at time `t`, channel `d`. -/
def sampleAt (pred : List (List (List ℚ))) (t d : ℕ) : List ℚ :=
  pred.map fun s => idxQ s t d

/-- Duration axis length of a stack of matrices (taken from the first
element, as a tensor's shape is uniform). -/
def stackT (pred : List (List (List ℚ))) : ℕ := (pred.headD []).length

/-- Channel axis length of a stack of matrices. -/
def stackD (pred : List (List (List ℚ))) : ℕ := ((pred.headD []).headD []).length

/-- `torch.median(dim=0)`: for an even number of elements torch returns the
lower of the two middle order statistics, i.e. sorted index `(n-1)/2`. -/
def lowerMedian (l : List ℚ) : ℚ := (sortAsc l).getD ((l.length - 1) / 2) 0

/-- `pred.median(0).values` for an ensemble. -/
def medianDim0 (pred : List (List (List ℚ))) : List (List ℚ) :=
  (List.range (stackT pred)).map fun t =>
    (List.range (stackD pred)).map fun d => lowerMedian (sampleAt pred t d)

/-- `pred.mean(0)` for an ensemble. -/
def meanDim0 (pred : List (List (List ℚ))) : List (List ℚ) :=
  (List.range (stackT pred)).map fun t =>
    (List.range (stackD pred)).map fun d => listMean (sampleAt pred t d)

/-- `pred.mean(0)` for a stack of equal-shape matrices (the quantile axis of
`eval_pl`). -/
def meanStack (ws : List (List (List ℚ))) : List (List ℚ) :=
  (List.range (stackT ws)).map fun t =>
    (List.range (stackD ws)).map fun d => listMean (ws.map fun s => idxQ s t d)

/-- `eval_mae(pred, truth)` from `evaluate.py`: per-time-step median across
samples, absolute deviation from truth, flatten the trailing two axes and
take the mean.  The subtraction broadcasts (torch semantics); `none` is the
shape error. -/
def eval_mae (pred : List (List (List ℚ))) (truth : List (List ℚ)) : Option ℚ := do
  let p := medianDim0 pred
  let e ← bZip2 (fun x y => x - y) p truth
  pure (flatMean (e.map (List.map fun x => |x|)))

/-- `eval_rmse(pred, truth)` from `evaluate.py`: per-time-step mean across
samples, squared error, flatten-mean, square root.  The square root of the
exact rational mean is taken in ℝ. -/
noncomputable def eval_rmse (pred : List (List (List ℚ))) (truth : List (List ℚ)) :
    Option ℝ := do
  let p := meanDim0 pred
  let e ← bZip2 (fun x y => x - y) p truth
  pure (Real.sqrt ((flatMean (e.map (List.map fun x => x * x)) : ℚ) : ℝ))

/-- Modelled from the spec: `M5Data.quantiles` lives in `util.py`, which is
not part of the sources; the spec enumerates the quantile levels as
{0.005, 0.165, 0.25, 0.5, 0.75, 0.835, 0.975, 0.995} (while calling them
"9 fixed quantile levels", the enumeration has 8 elements). -/
def M5Data_quantiles : List ℚ := [0.005, 0.165, 0.25, 0.5, 0.75, 0.835, 0.975, 0.995]

/-- `pyro.ops.stats.quantile` along the sample axis for one list of samples:
sort, take the order statistics below and above the fractional index
`u * (n - 1)` and interpolate linearly (`indices.long()` truncates, which is
the floor for the non-negative probabilities used here). -/
def pyroQuantile1 (u : ℚ) (l : List ℚ) : ℚ :=
  let s := sortAsc l
  let maxIdx : ℕ := l.length - 1
  let idx : ℚ := u * maxIdx
  let below : ℕ := idx.floor.toNat
  let above : ℕ := min (below + 1) maxIdx
  (1 - (idx - below)) * s.getD below 0 + (idx - below) * s.getD above 0

/-- `quantile(pred, probs=us, dim=0)`: the stack of per-quantile matrices. -/
def quantileDim0 (probs : List ℚ) (pred : List (List (List ℚ))) :
    List (List (List ℚ)) :=
  probs.map fun u =>
    (List.range (stackT pred)).map fun t =>
      (List.range (stackD pred)).map fun d => pyroQuantile1 u (sampleAt pred t d)

/-- `eval_pl(pred, truth)` from `evaluate.py`: empirical quantiles of the
ensemble at the fixed quantile levels, signed error versus truth (broadcast),
asymmetric weight `-u` where the error is ≤ 0 and `1 - u` otherwise, mean
over the quantile axis, then flatten-mean over the trailing two axes. -/
def eval_pl (pred : List (List (List ℚ))) (truth : List (List ℚ)) : Option ℚ := do
  let pq := quantileDim0 M5Data_quantiles pred
  let errs ← pq.mapM fun sl => bZip2 (fun x y => x - y) sl truth
  let weighted := (M5Data_quantiles.zip errs).map fun ue =>
    ue.2.map (List.map fun x => (if x ≤ 0 then -ue.1 else 1 - ue.1) * x)
  pure (flatMean (meanStack weighted))

/-- `sales_last28` of `model1.py`: the trailing 28 periods of every
bottom-level series (`[:, -28:]`; a shorter history is kept whole, as in
torch). -/
def salesLast28 (sales : List (List ℚ)) : List (List ℚ) :=
  sales.map fun r => r.drop (r.length - 28)

/-- `sales_last28.sum()`: the grand total over the trailing window. -/
def grandTotal (sales : List (List ℚ)) : ℚ := ((salesLast28 sales).map List.sum).sum

/-- `proportion = sales_last28.sum(-1) / sales_last28.sum()` of `model1.py`. -/
def proportion (sales : List (List ℚ)) : List ℚ :=
  (salesLast28 sales).map fun r => r.sum / grandTotal sales

/-- `proportion.ger(pred)`: outer product, row `i` is
`proportion[i] * pred`. -/
def ger (p f : List ℚ) : List (List ℚ) := p.map fun pi => f.map fun x => pi * x

/-- Channel width of a `duration × channels` tensor (from its first row). -/
def tdD (td : List (List ℚ)) : ℕ := (td.headD []).length

/-- `train_data.sum(-1)`: the per-time-step channel sums. -/
def rowSumsQ (td : List (List ℚ)) : List ℚ := td.map List.sum

/-- `(train_data.sum(-1, keepdims=True).cumsum(-2) != 0).sum(-2)` of
`_get_metric_scale`: the number of time indices at which the cumulative
channel sum is non-zero. -/
def activeTime (td : List (List ℚ)) : ℕ :=
  (cumsum (rowSumsQ td)).countP fun x => x ≠ 0

/-- `train_data - pad(train_data[..., :-1, :], (0, 0, 1, 0))` of
`_get_metric_scale`: lag-1 differences along time, with one zero row padded
in front. -/
def lag1 (td : List (List ℚ)) : List (List ℚ) :=
  List.zipWith (fun r p => List.zipWith (fun x y => x - y) r p)
    td (List.replicate (tdD td) 0 :: td.dropLast)

/-- The finite part of `_get_metric_scale`: everything up to and including
`start_value`, the per-channel reduction `lag1.abs().pow(norm).sum(-2) -
start_value.abs().pow(norm)` and `.mean(-1)`, before the division by
`active_time - 1`.  Returns the channel mean together with `active_time`;
`none` is the index-out-of-bounds error that `gather` raises when
`duration - active_time` is not a valid time index (an all-zero training
window). -/
def scaleCore (norm : ℕ) (td : List (List ℚ)) : Option (ℚ × ℕ) :=
  let duration := td.length
  let τ := activeTime td
  if duration - τ < duration then
    let start := td.getD (duration - τ) []
    let l1 := lag1 td
    let colPow : List ℚ := (List.range (tdD td)).map fun c =>
      ((List.range duration).map fun t => |idxQ l1 t c| ^ norm).sum
    let ln : List ℚ := List.zipWith (fun s v => s - |v| ^ norm) colPow start
    some (listMean ln, τ)
  else none

/-- IEEE float values with an exact rational payload: the finite values plus
the two infinities and NaN. -/
inductive FValQ where
  | fin : ℚ → FValQ
  | pinf : FValQ
  | ninf : FValQ
  | nan : FValQ
deriving DecidableEq

/-- IEEE float values with a real payload (needed once a square root has
been taken). -/
inductive FValR where
  | fin : ℝ → FValR
  | pinf : FValR
  | ninf : FValR
  | nan : FValR

/-- IEEE division of a finite value by a finite value: `x / 0` is NaN for
`x = 0` and a signed infinity otherwise. -/
def fdivQ (x y : ℚ) : FValQ :=
  if y = 0 then (if x = 0 then .nan else if 0 < x then .pinf else .ninf)
  else .fin (x / y)

/-- `_get_metric_scale` up to and including the division
`.div(active_time - 1)`, i.e. everything except the final
`.pow(1 / norm)`. -/
def scaleVal (norm : ℕ) (td : List (List ℚ)) : Option FValQ :=
  (scaleCore norm td).map fun mt => fdivQ mt.1 ((mt.2 : ℚ) - 1)

/-- `x.pow(1 / norm)` for `norm ∈ {1, 2}`: the identity for `norm = 1` and
the square root for `norm = 2` (NaN on a negative finite radicand or NaN;
IEEE `pow` sends both infinities to `+∞` at exponent `0.5`). -/
noncomputable def powInv (norm : ℕ) : FValQ → FValR
  | .fin q => if norm = 2 then (if q < 0 then .nan else .fin (Real.sqrt q)) else .fin (q : ℝ)
  | .pinf => .pinf
  | .ninf => if norm = 2 then .pinf else .ninf
  | .nan => .nan

/-- `norm = 2 if metric == "rmse" else 1` of `_get_metric_scale`. -/
def metricNorm (metric : String) : ℕ := if metric = "rmse" then 2 else 1

/-- `_get_metric_scale(metric, train_data)` from `evaluate.py`, for one
series. -/
noncomputable def get_metric_scale (metric : String) (td : List (List ℚ)) :
    Option FValR :=
  (scaleVal (metricNorm metric) td).map (powInv (metricNorm metric))

/-- IEEE division on embedded float values.  NaN propagates, a finite value
divided by an infinity is (signed) zero, division by finite zero gives NaN
or a signed infinity, infinities over finite values keep a sign, and
`∞ / ∞` is NaN. -/
noncomputable def fdivR : FValR → FValR → FValR
  | .nan, _ => .nan
  | _, .nan => .nan
  | .fin x, .fin y =>
      if y = 0 then (if x = 0 then .nan else if 0 < x then .pinf else .ninf)
      else .fin (x / y)
  | .fin _, .pinf => .fin 0
  | .fin _, .ninf => .fin 0
  | .pinf, .fin y => if y < 0 then .ninf else .pinf
  | .ninf, .fin y => if y < 0 then .pinf else .ninf
  | .pinf, .pinf => .nan
  | .pinf, .ninf => .nan
  | .ninf, .pinf => .nan
  | .ninf, .ninf => .nan

/-- `eval_weighted_scale(metric, value, train_data, weight)` from
`evaluate.py`, for one (univariate) series: `(weight * value / scale).sum()`
degenerates to the single scalar `weight * value / scale`. -/
noncomputable def eval_weighted_scale (metric : String) (value : ℚ)
    (td : List (List ℚ)) (weight : ℚ) : Option FValR :=
  (get_metric_scale metric td).map fun s => fdivR (.fin ((weight * value : ℚ) : ℝ)) s

/-- One window record produced by the external `backtest` call: its `t1`
boundary and the raw metric values stored under the metric names. -/
structure WindowIn where
  t1 : ℕ
  vals : String → ℚ

/-- The running value of the `weight` variable inside the window loop of
`m5_backtest`: it starts as the normalized 1-d weight vector and is
reassigned to `weight[t1 - 1]`, a 0-dim scalar, by the first iteration. -/
inductive WSlice where
  | vec : List ℚ → WSlice
  | scalar : ℚ → WSlice

/-- `weight[i]` on the current value of the loop variable: indexing a 1-d
tensor yields a 0-dim scalar, indexing a 0-dim tensor raises IndexError
(`none`). -/
def wIndex : WSlice → ℕ → Option WSlice
  | .vec w, i => (w.get? i).map .scalar
  | .scalar _, _ => none

/-- The rational payload of a 0-dim weight (the value that enters
`eval_weighted_scale`). -/
def wValue : WSlice → ℚ
  | .vec _ => 0
  | .scalar x => x

/-- The window loop of `m5_backtest` (lines 106-113) for a univariate
series: for each window, slice `train_data = data[..., :t1, :]`, reassign
`weight = weight[t1 - 1]`, and store `ws_<metric>` for every configured
metric.  The reassignment updates the loop state, exactly as in the
source. -/
noncomputable def m5LoopWs (data : List (List ℚ)) (metrics : List String) :
    WSlice → List WindowIn → Option (List (List (String × FValR)))
  | _, [] => some []
  | w, win :: rest => do
    let trainData := data.take win.t1
    let w2 ← wIndex w (win.t1 - 1)
    let rec1 ← metrics.mapM fun m =>
      (eval_weighted_scale m (win.vals m) trainData (wValue w2)).map
        fun v => ("ws_" ++ m, v)
    let rest1 ← m5LoopWs data metrics w2 rest
    pure (rec1 :: rest1)

/-- `weight.reshape((-1, T)).sum(0)` for a flat weight vector: element `i`
of the flattened tensor lands in column `i % T` of the reshape, so column
`t` collects every element whose index is congruent to `t`. -/
def reshapeColSums (T : ℕ) (w : List ℚ) : List ℚ :=
  (List.range T).map fun t => ((w.enum.filter fun p => p.1 % T = t).map Prod.snd).sum

/-- `m5_backtest(data, covariates, model_fn, weight, **kwargs)` from
`evaluate.py`, embedded for a univariate `duration × channels` series (the
shape `model1.py` uses).  The external `backtest` call is the collaborator
that produces the window records, so they are taken as an input.  The
returned pair is the effective `min_train_window` passed to `backtest`
together with the list of `ws_<metric>` entries added to each window.
`none` is the failed `assert weight.shape == data.shape[:-1]` or a
propagated error of the window loop.  (`t1 - 1` is ℕ subtraction; every
window produced by `backtest` has `t1 ≥ min_train_window ≥ 1`.) -/
noncomputable def m5_backtest (data : List (List ℚ)) (weightIn : Option (List ℚ))
    (metricsIn : Option (List String)) (minTrainIn : Option ℕ)
    (windows : List WindowIn) : Option (ℕ × List (List (String × FValR))) := do
  let weight := weightIn.getD (List.replicate data.length 1)
  if weight.length = data.length then
    let wn := List.zipWith (fun x s => x / s) weight (reshapeColSums data.length weight)
    let metrics := metricsIn.getD ["mae", "rmse", "crps", "pl"]
    let mtwFloor := ((cumsum (rowSumsQ data)).countP fun x => x = 0) + 2
    let minTrain := if minTrainIn.getD 1 < mtwFloor then mtwFloor else minTrainIn.getD 1
    let recs ← m5LoopWs data metrics (WSlice.vec wn) windows
    pure (minTrain, recs)
  else none

/-- Per-series count of line 99 of `evaluate.py`:
`(data.sum(-1).cumsum(-1) == 0).sum(-1)` for one series. -/
def leadZeroCount (td : List (List ℚ)) : ℕ :=
  (cumsum (rowSumsQ td)).countP fun x => x = 0

/-- `(data.sum(-1).cumsum(-1) == 0).sum(-1).max() + 2` of `m5_backtest` for
a batched `series × duration × channels` data tensor; `none` is the error
torch raises for `max()` of an empty tensor. -/
def min_train_window_floor (data : List (List (List ℚ))) : Option ℕ :=
  ((data.map leadZeroCount).max?).map fun c => c + 2

/-- Lines 99-103 of `evaluate.py`: the effective `min_train_window` (with
the caller's request defaulting to 1) together with whether the diagnostic
message was emitted. -/
def min_train_window_eff (data : List (List (List ℚ))) (req : Option ℕ) :
    Option (ℕ × Bool) :=
  (min_train_window_floor data).map fun c =>
    if req.getD 1 < c then (c, true) else (req.getD 1, false)

theorem getD_map {α β : Type} (f : α → β) (l : List α) (i : ℕ) (da : α) (db : β)
    (h : i < l.length) : (l.map f).getD i db = f (l.getD i da) := by
  induction l generalizing i with
  | nil => simp at h
  | cons x xs ih =>
    cases i with
    | zero => simp
    | succ j => simpa using ih j (by simpa using h)

theorem getD_map_range {α : Type} (f : ℕ → α) (n i : ℕ) (d : α) (h : i < n) :
    ((List.range n).map f).getD i d = f i := by
  have := getD_map f (List.range n) i 0 d (by simpa using h)
  rw [this, List.getD_eq_getElem?_getD, List.getElem?_range h]
  rfl

theorem getD_zipWith {α β γ : Type} (f : α → β → γ) (a : List α) (b : List β)
    (i : ℕ) (da : α) (db : β) (dc : γ) (h1 : i < a.length) (h2 : i < b.length) :
    (List.zipWith f a b).getD i dc = f (a.getD i da) (b.getD i db) := by
  induction a generalizing b i with
  | nil => simp at h1
  | cons x xs ih =>
    cases b with
    | nil => simp at h2
    | cons y ys =>
      cases i with
      | zero => simp
      | succ j => simpa using ih ys j (by simpa using h1) (by simpa using h2)

theorem listMean_nonneg {l : List ℚ} (h : ∀ x ∈ l, 0 ≤ x) : 0 ≤ listMean l :=
  div_nonneg (List.sum_nonneg h) (Nat.cast_nonneg _)

theorem flatMean_nonneg {m : List (List ℚ)} (h : ∀ r ∈ m, ∀ x ∈ r, 0 ≤ x) :
    0 ≤ flatMean m := by
  refine listMean_nonneg fun x hx => ?_
  rw [List.mem_flatten] at hx
  obtain ⟨r, hr, hxr⟩ := hx
  exact h r hr x hxr

theorem idxQ_nonneg {m : List (List ℚ)} (h : ∀ r ∈ m, ∀ x ∈ r, 0 ≤ x)
    (t d : ℕ) : 0 ≤ idxQ m t d := by
  unfold idxQ
  rcases ht : m[t]? with _ | r
  · simp [List.getD_eq_getElem?_getD, ht]
  · rcases hd : r[d]? with _ | x
    · simp [List.getD_eq_getElem?_getD, ht, hd]
    · have hr : r ∈ m := List.getElem?_mem ht
      have hx : x ∈ r := List.getElem?_mem hd
      have := h r hr x hx
      simp [List.getD_eq_getElem?_getD, ht, hd, this]

theorem sum_map_div (l : List ℚ) (c : ℚ) :
    (l.map fun x => x / c).sum = l.sum / c := by
  induction l with
  | nil => simp
  | cons x xs ih => simp [ih, div_add_div_same]

theorem sum_map_mul_right (l : List ℚ) (c : ℚ) :
    (l.map fun x => x * c).sum = l.sum * c := by
  induction l with
  | nil => simp
  | cons x xs ih => simp [ih, add_mul]

/-- Claim C8: for a bottom-level sales history with non-zero grand total
over the trailing 28 periods, the proportion vector sums to 1 and summing
the disaggregated forecasts `proportion[i] * pred[t]` over all bottom-level
series reproduces the aggregate forecast at every time step, exactly. -/
theorem C8_topdown_mass_preserved (sales : List (List ℚ)) (pred : List ℚ)
    (h : grandTotal sales ≠ 0) :
    (proportion sales).sum = 1 ∧
    ∀ t, t < pred.length →
      ((ger (proportion sales) pred).map fun r => r.getD t 0).sum = pred.getD t 0 := by
  have hsum : (proportion sales).sum = 1 := by
    have : proportion sales = ((salesLast28 sales).map List.sum).map fun x => x / grandTotal sales := by
      rw [List.map_map]; rfl
    rw [this, sum_map_div]
    exact div_self h
  refine ⟨hsum, fun t ht => ?_⟩
  have hcol : (ger (proportion sales) pred).map (fun r => r.getD t 0)
      = (proportion sales).map fun pi => pi * pred.getD t 0 := by
    unfold ger
    rw [List.map_map]
    refine List.map_congr_left fun pi _ => ?_
    have := getD_map (fun x => pi * x) pred t 0 0 ht
    simpa using this
  rw [hcol]
  have := sum_map_mul_right (proportion sales) (pred.getD t 0)
  simp only [this, hsum, one_mul]

/-- Witness for C8 at a concrete single-series history. -/
theorem C8_witness :
    (proportion [[1]]).sum = 1 ∧
    ((ger (proportion [[1]]) [5]).map fun r => r.getD 0 0).sum = ([5] : List ℚ).getD 0 0 := by
  have h : grandTotal [[1]] ≠ 0 := by simp [grandTotal, salesLast28]
  exact ⟨(C8_topdown_mass_preserved [[1]] [5] h).1,
    (C8_topdown_mass_preserved [[1]] [5] h).2 0 (by decide)⟩

theorem quantLevels_unit : ∀ u ∈ M5Data_quantiles, 0 ≤ u ∧ u ≤ 1 := by
  intro u hu
  simp only [M5Data_quantiles, List.mem_cons, List.not_mem_nil, or_false] at hu
  rcases hu with rfl | rfl | rfl | rfl | rfl | rfl | rfl | rfl <;> norm_num

theorem pinweight_nonneg {u : ℚ} (x : ℚ) (h0 : 0 ≤ u) (h1 : u ≤ 1) :
    0 ≤ (if x ≤ 0 then -u else 1 - u) * x := by
  by_cases hx : x ≤ 0
  · rw [if_pos hx, neg_mul_comm]
    exact mul_nonneg h0 (neg_nonneg.2 hx)
  · rw [if_neg hx]
    exact mul_nonneg (by linarith) (le_of_lt (not_le.1 hx))

/-- Claim C10: for every prediction ensemble and truth tensor, the values
returned by the MAE, RMSE and pinball-loss metrics are non-negative (each is
an average of absolute values, a square root, or an average of pointwise
non-negative products). -/
theorem C10_metric_values_nonneg (pred : List (List (List ℚ)))
    (truth : List (List ℚ)) :
    0 ≤ (eval_mae pred truth).getD 0 ∧
    (0 : ℝ) ≤ (eval_rmse pred truth).getD 0 ∧
    0 ≤ (eval_pl pred truth).getD 0 := by
  refine ⟨?_, ?_, ?_⟩
  · rcases h : bZip2 (fun x y => x - y) (medianDim0 pred) truth with _ | e
    · simp [eval_mae, h]
    · have he : eval_mae pred truth
          = some (flatMean (e.map (List.map fun x => |x|))) := by
        simp [eval_mae, h]
      rw [he, Option.getD_some]
      refine flatMean_nonneg fun r hr x hx => ?_
      rw [List.mem_map] at hr
      obtain ⟨r0, _, rfl⟩ := hr
      rw [List.mem_map] at hx
      obtain ⟨y, _, rfl⟩ := hx
      exact abs_nonneg y
  · rcases h : bZip2 (fun x y => x - y) (meanDim0 pred) truth with _ | e
    · simp [eval_rmse, h]
    · have he : eval_rmse pred truth
          = some (Real.sqrt ((flatMean (e.map (List.map fun x => x * x)) : ℚ) : ℝ)) := by
        simp [eval_rmse, h]
      rw [he, Option.getD_some]
      exact Real.sqrt_nonneg _
  · have hd : eval_pl pred truth
        = ((quantileDim0 M5Data_quantiles pred).mapM
            (fun sl => bZip2 (fun x y => x - y) sl truth)).bind fun errs =>
          some (flatMean (meanStack ((M5Data_quantiles.zip errs).map fun ue =>
            ue.2.map (List.map fun x => (if x ≤ 0 then -ue.1 else 1 - ue.1) * x)))) := rfl
    rcases h : (quantileDim0 M5Data_quantiles pred).mapM
        (fun sl => bZip2 (fun x y => x - y) sl truth) with _ | errs
    · rw [hd, h]
      simp
    · rw [hd, h, Option.some_bind, Option.getD_some]
      refine flatMean_nonneg fun r hr x hx => ?_
      unfold meanStack at hr
      rw [List.mem_map] at hr
      obtain ⟨t, _, rfl⟩ := hr
      rw [List.mem_map] at hx
      obtain ⟨d, _, rfl⟩ := hx
      refine listMean_nonneg fun v hv => ?_
      rw [List.mem_map] at hv
      obtain ⟨s, hs, rfl⟩ := hv
      rw [List.mem_map] at hs
      obtain ⟨ue, hue, rfl⟩ := hs
      obtain ⟨u, eu⟩ := ue
      have hu : u ∈ M5Data_quantiles := (List.of_mem_zip hue).1
      obtain ⟨h0, h1⟩ := quantLevels_unit u hu
      refine idxQ_nonneg (fun rr hrr y hy => ?_) t d
      rw [List.mem_map] at hrr
      obtain ⟨rr0, _, rfl⟩ := hrr
      rw [List.mem_map] at hy
      obtain ⟨z, _, rfl⟩ := hy
      exact pinweight_nonneg z h0 h1

theorem bAlign_none {α : Type} (a b : List α) (h1 : a.length ≠ b.length)
    (h2 : a.length ≠ 1) (h3 : b.length ≠ 1) : bAlign a b = none := by
  unfold bAlign
  rw [if_neg h1]
  rcases a with _ | ⟨x, xs⟩
  · rcases b with _ | ⟨y, ys⟩
    · exact absurd rfl h1
    · rcases ys with _ | ⟨y2, ys2⟩
      · exact absurd rfl h3
      · rfl
  · rcases xs with _ | ⟨x2, xs2⟩
    · exact absurd rfl h2
    · rcases b with _ | ⟨y, ys⟩
      · rfl
      · rcases ys with _ | ⟨y2, ys2⟩
        · exact absurd rfl h3
        · rfl

theorem bZip2_none (f : ℚ → ℚ → ℚ) (a b : List (List ℚ))
    (h1 : a.length ≠ b.length) (h2 : a.length ≠ 1) (h3 : b.length ≠ 1) :
    bZip2 f a b = none := by
  have h := bAlign_none a b h1 h2 h3
  simp [bZip2, h]

theorem medianDim0_length (pred : List (List (List ℚ))) :
    (medianDim0 pred).length = stackT pred := by
  simp [medianDim0]

/-- Counterexample to C6 as stated: the MAE metric applied to a prediction
ensemble whose channel axis has size 3 against a truth whose channel axis
has size 1 (mismatched trailing axes) does not fail — it silently broadcasts
and returns a value. -/
theorem C6_counterexample :
    stackD [[[2, 2, 2], [2, 2, 2]]] = 3 ∧ tdD [[1], [1]] = 1 ∧
    eval_mae [[[2, 2, 2], [2, 2, 2]]] ([[1], [1]] : List (List ℚ)) = some 1 := by
  refine ⟨rfl, rfl, ?_⟩
  have h1 : eval_mae [[[2, 2, 2], [2, 2, 2]]] ([[1], [1]] : List (List ℚ))
      = some (flatMean ([[2 - 1, 2 - 1, 2 - 1], [2 - 1, 2 - 1, 2 - 1]].map
          (List.map fun x => |x|))) := rfl
  rw [h1]
  norm_num [flatMean, listMean]

theorem sum_map_mul_left (l : List ℚ) (c : ℚ) :
    (l.map fun x => c * x).sum = c * l.sum := by
  induction l with
  | nil => simp
  | cons x xs ih => simp [ih, mul_add]

theorem reshapeColSums_map_mul (T : ℕ) (w : List ℚ) (c : ℚ) :
    reshapeColSums T (w.map fun x => c * x)
      = (reshapeColSums T w).map fun s => c * s := by
  unfold reshapeColSums
  rw [List.map_map]
  refine List.map_congr_left fun t _ => ?_
  rw [List.enum_map, List.filter_map, List.map_map]
  have hp : ((fun p : ℕ × ℚ => decide (p.1 % T = t)) ∘ Prod.map id fun x => c * x)
      = fun p : ℕ × ℚ => decide (p.1 % T = t) := by
    funext p
    rcases p with ⟨i, x⟩
    rfl
  rw [hp]
  have hs : (Prod.snd ∘ Prod.map id fun x => c * x)
      = (fun x => c * x) ∘ (Prod.snd : ℕ × ℚ → ℚ) := by
    funext p
    rcases p with ⟨i, x⟩
    rfl
  rw [hs, ← List.map_map]
  exact sum_map_mul_left _ c

/-- Claim C9: multiplying the weight vector elementwise by a positive
constant does not change anything `m5_backtest` computes, because the weight
vector is normalized (elementwise division by the reshape-column sums)
before use. -/
theorem C9_weight_rescaling_invariant (data : List (List ℚ)) (w : List ℚ)
    (c : ℚ) (mIn : Option (List String)) (tIn : Option ℕ)
    (wins : List WindowIn) (hc : 0 < c) :
    m5_backtest data (some (w.map fun x => c * x)) mIn tIn wins
      = m5_backtest data (some w) mIn tIn wins := by
  have hc0 : c ≠ 0 := ne_of_gt hc
  have hwn : List.zipWith (fun x s => x / s) (w.map fun x => c * x)
        (reshapeColSums data.length (w.map fun x => c * x))
      = List.zipWith (fun x s => x / s) w (reshapeColSums data.length w) := by
    rw [reshapeColSums_map_mul, List.zipWith_map_left, List.zipWith_map_right]
    congr 1
    funext x s
    exact mul_div_mul_left x s hc0
  simp only [m5_backtest, Option.getD_some, List.length_map, hwn]

/-- Witness for C9 at a concrete data tensor, weight and constant. -/
theorem C9_witness :
    m5_backtest [[1]] (some ([1].map fun x => (2 : ℚ) * x)) none none []
      = m5_backtest [[1]] (some [1]) none none [] :=
  C9_weight_rescaling_invariant [[1]] [1] 2 none none [] (by decide)

/-- Claim C1 (code bug): `m5_backtest` reassigns the loop variable
`weight = weight[t1 - 1]` inside the window loop, so the slice for the
second window is taken from the already-sliced 0-dim scalar, not from the
full normalized weight vector: indexing it raises IndexError.  With a
single window the same configuration succeeds; with two windows the whole
backtest aborts. -/
theorem C1_weight_reassignment_bug :
    m5_backtest [[0], [1]] none (some ["mae"]) none
      [⟨2, fun _ => 1⟩] = some (3, [[("ws_mae", FValR.nan)]]) ∧
    m5_backtest [[0], [1]] none (some ["mae"]) none
      [⟨2, fun _ => 1⟩, ⟨2, fun _ => 1⟩] = none := by
  constructor
  · norm_num [m5_backtest, m5LoopWs, eval_weighted_scale, get_metric_scale,
      scaleVal, scaleCore, activeTime, cumsum, rowSumsQ, metricNorm, fdivQ,
      powInv, fdivR, wIndex, wValue, reshapeColSums, lag1, tdD, idxQ,
      listMean, List.enum, List.enumFrom, List.range_succ, List.countP_cons,
      List.countP_nil, decide_eq_true_eq, List.mapM.loop]
    rfl
  · norm_num [m5_backtest, m5LoopWs, eval_weighted_scale, get_metric_scale,
      scaleVal, scaleCore, activeTime, cumsum, rowSumsQ, metricNorm, fdivQ,
      powInv, fdivR, wIndex, wValue, reshapeColSums, lag1, tdD, idxQ,
      listMean, List.enum, List.enumFrom, List.range_succ, List.countP_cons,
      List.countP_nil, decide_eq_true_eq]

/-- Length of the leading all-zero prefix of a list (proof-side helper). -/
def zRun (l : List ℚ) : ℕ := (l.takeWhile fun x => x = 0).length

theorem cumsum_nonneg {l : List ℚ} (h : ∀ x ∈ l, 0 ≤ x) :
    ∀ y ∈ cumsum l, 0 ≤ y := by
  induction l with
  | nil => simp [cumsum]
  | cons x xs ih =>
    intro y hy
    rw [cumsum] at hy
    rcases List.mem_cons.1 hy with rfl | hy2
    · exact h y (List.mem_cons_self _ _)
    · rw [List.mem_map] at hy2
      obtain ⟨z, hz, rfl⟩ := hy2
      have hx : 0 ≤ x := h x (List.mem_cons_self _ _)
      have hz2 : 0 ≤ z := ih (fun a ha => h a (List.mem_cons_of_mem _ ha)) z hz
      linarith

theorem all_zero_of_sum_zero {r : List ℚ} (h : ∀ x ∈ r, 0 ≤ x)
    (hs : r.sum = 0) : ∀ x ∈ r, x = 0 := by
  induction r with
  | nil => simp
  | cons x xs ih =>
    have hx : 0 ≤ x := h x (List.mem_cons_self _ _)
    have hxs : ∀ y ∈ xs, 0 ≤ y := fun y hy => h y (List.mem_cons_of_mem _ hy)
    have hsum : 0 ≤ xs.sum := List.sum_nonneg hxs
    rw [List.sum_cons] at hs
    have hx0 : x = 0 := by linarith
    have hxs0 : xs.sum = 0 := by linarith
    intro y hy
    rcases List.mem_cons.1 hy with rfl | hy2
    · exact hx0
    · exact ih hxs hxs0 y hy2

theorem map_zero_add (c : List ℚ) : (c.map fun y => (0 : ℚ) + y) = c := by
  have : (c.map fun y => (0 : ℚ) + y) = c.map fun y => y :=
    List.map_congr_left fun y _ => zero_add y
  rw [this, List.map_id']

theorem cumsum_length (l : List ℚ) : (cumsum l).length = l.length := by
  induction l with
  | nil => rfl
  | cons x xs ih => simp [cumsum, ih]

theorem countP_ne_cumsum {l : List ℚ} (h : ∀ x ∈ l, 0 ≤ x) :
    (cumsum l).countP (fun x => x ≠ 0) = l.length - zRun l := by
  induction l with
  | nil => simp [cumsum, zRun]
  | cons x xs ih =>
    have hxs : ∀ y ∈ xs, 0 ≤ y := fun y hy => h y (List.mem_cons_of_mem _ hy)
    by_cases hx : x = 0
    · subst hx
      rw [cumsum, map_zero_add, List.countP_cons, ih hxs]
      have hz : zRun ((0 : ℚ) :: xs) = zRun xs + 1 := by
        simp [zRun, List.takeWhile_cons]
      rw [hz]
      simp only [List.length_cons, decide_eq_true_eq]
      rw [if_neg (by simp)]
      omega
    · have hx2 : 0 < x := lt_of_le_of_ne (h x (List.mem_cons_self _ _)) (Ne.symm hx)
      have hz : zRun (x :: xs) = 0 := by
        simp [zRun, List.takeWhile_cons, hx]
      rw [hz, cumsum]
      have hall : ∀ y ∈ x :: (cumsum xs).map (fun y => x + y), decide (y ≠ 0) = true := by
        intro y hy
        rcases List.mem_cons.1 hy with rfl | hy2
        · simpa using hx
        · rw [List.mem_map] at hy2
          obtain ⟨z, hz2, rfl⟩ := hy2
          have hz3 : 0 ≤ z := cumsum_nonneg hxs z hz2
          simp only [decide_eq_true_eq]
          positivity
      rw [List.countP_eq_length.2 hall]
      simp [cumsum_length]

theorem countP_eq_cumsum {l : List ℚ} (h : ∀ x ∈ l, 0 ≤ x) :
    (cumsum l).countP (fun x => x = 0) = zRun l := by
  induction l with
  | nil => simp [cumsum, zRun]
  | cons x xs ih =>
    have hxs : ∀ y ∈ xs, 0 ≤ y := fun y hy => h y (List.mem_cons_of_mem _ hy)
    by_cases hx : x = 0
    · subst hx
      rw [cumsum, map_zero_add, List.countP_cons, ih hxs]
      have hz : zRun ((0 : ℚ) :: xs) = zRun xs + 1 := by
        simp [zRun, List.takeWhile_cons]
      rw [hz]
      simp
    · have hz : zRun (x :: xs) = 0 := by
        simp [zRun, List.takeWhile_cons, hx]
      rw [hz, cumsum]
      refine List.countP_eq_zero.2 ?_
      intro y hy
      rcases List.mem_cons.1 hy with rfl | hy2
      · simpa using hx
      · rw [List.mem_map] at hy2
        obtain ⟨z, hz2, rfl⟩ := hy2
        have hz3 : 0 ≤ z := cumsum_nonneg hxs z hz2
        have hx2 : 0 < x := lt_of_le_of_ne (h x (List.mem_cons_self _ _)) (Ne.symm hx)
        simp only [decide_eq_true_eq]
        positivity

/-- The per-series quantity claim C4 describes: the length of the leading
run of time steps whose response is entirely zero across all channels. -/
def specLeadRun (td : List (List ℚ)) : ℕ :=
  (td.takeWhile fun r => r.all fun x => x = 0).length

/-- The claim's global floor: the maximum over series of the leading
all-zero run, plus the safety margin of 2. -/
def spec_min_train_floor (data : List (List (List ℚ))) : Option ℕ :=
  ((data.map specLeadRun).max?).map fun c => c + 2

theorem rowSumsQ_nonneg {td : List (List ℚ)} (h : ∀ r ∈ td, ∀ x ∈ r, 0 ≤ x) :
    ∀ s ∈ rowSumsQ td, 0 ≤ s := by
  intro s hs
  rw [rowSumsQ, List.mem_map] at hs
  obtain ⟨r, hr, rfl⟩ := hs
  exact List.sum_nonneg (h r hr)

theorem specLeadRun_eq_zRun {td : List (List ℚ)}
    (h : ∀ r ∈ td, ∀ x ∈ r, 0 ≤ x) : specLeadRun td = zRun (rowSumsQ td) := by
  induction td with
  | nil => rfl
  | cons r rest ih =>
    have hr : ∀ x ∈ r, 0 ≤ x := h r (List.mem_cons_self _ _)
    have hrest : ∀ r2 ∈ rest, ∀ x ∈ r2, 0 ≤ x :=
      fun r2 h2 => h r2 (List.mem_cons_of_mem _ h2)
    by_cases hz : r.sum = 0
    · have hall : (r.all fun x => decide (x = 0)) = true := by
        rw [List.all_eq_true]
        intro x hx
        simpa using all_zero_of_sum_zero hr hz x hx
      have h1 : specLeadRun (r :: rest) = specLeadRun rest + 1 := by
        simp [specLeadRun, List.takeWhile_cons, hall]
      have h2 : zRun (rowSumsQ (r :: rest)) = zRun (rowSumsQ rest) + 1 := by
        simp [zRun, rowSumsQ, List.takeWhile_cons, hz]
      rw [h1, h2, ih hrest]
    · have hall : (r.all fun x => decide (x = 0)) = false := by
        rw [List.all_eq_false]
        by_contra hc
        push_neg at hc
        refine hz (List.sum_eq_zero ?_)
        intro x hx
        have := hc x hx
        simpa using this
      have h1 : specLeadRun (r :: rest) = 0 := by
        simp [specLeadRun, List.takeWhile_cons, hall]
      have h2 : zRun (rowSumsQ (r :: rest)) = 0 := by
        simp [zRun, rowSumsQ, List.takeWhile_cons, hz]
      rw [h1, h2]

/-- Claim C4 (amended): for data tensors with non-negative entries,
`m5_backtest` computes per series the length of the leading run of
all-zero time steps, takes the global maximum plus a margin of 2, and
replaces the caller-supplied `min_train_window` (default 1) with that value
(emitting the diagnostic) exactly when the supplied value is smaller. -/
theorem C4_min_train_window_floor (data : List (List (List ℚ))) (req : Option ℕ)
    (h : ∀ td ∈ data, ∀ r ∈ td, ∀ x ∈ r, 0 ≤ x) :
    min_train_window_eff data req
      = (spec_min_train_floor data).map fun c =>
          if req.getD 1 < c then (c, true) else (req.getD 1, false) := by
  have hmap : data.map leadZeroCount = data.map specLeadRun := by
    refine List.map_congr_left fun td htd => ?_
    rw [specLeadRun_eq_zRun (h td htd)]
    exact countP_eq_cumsum (rowSumsQ_nonneg (h td htd))
  unfold min_train_window_eff min_train_window_floor spec_min_train_floor
  rw [hmap, Option.map_map]

/-- Witness for C4 at a concrete non-negative data tensor. -/
theorem C4_witness :
    min_train_window_eff [[[0], [1]]] none
      = (spec_min_train_floor [[[0], [1]]]).map fun c =>
          if (none : Option ℕ).getD 1 < c then (c, true)
          else ((none : Option ℕ).getD 1, false) :=
  C4_min_train_window_floor [[[0], [1]]] none (by decide)

/-- Counterexample to C4 as stated: on data with a negative entry the
cumulative-sum count is not the leading all-zero run — the code computes
floor 3 where the claim's description computes floor 2. -/
theorem C4_counterexample :
    min_train_window_floor [[[1], [-1], [5]]] = some 3 ∧
    spec_min_train_floor [[[1], [-1], [5]]] = some 2 := by
  constructor
  · norm_num [min_train_window_floor, leadZeroCount, cumsum, rowSumsQ,
      List.countP_cons, List.countP_nil, List.max?]
  · norm_num [spec_min_train_floor, specLeadRun, List.takeWhile_cons,
      List.all_cons, List.max?]

theorem zRun_le (l : List ℚ) : zRun l ≤ l.length :=
  (List.takeWhile_prefix _).length_le

theorem rowSumsQ_length (td : List (List ℚ)) : (rowSumsQ td).length = td.length := by
  simp [rowSumsQ]

theorem getD_zero_of_lt_zRun {l : List ℚ} {t : ℕ} (h : t < zRun l) :
    l.getD t 0 = 0 := by
  induction l generalizing t with
  | nil => simp [zRun] at h
  | cons x xs ih =>
    rw [zRun, List.takeWhile_cons] at h
    by_cases hx : x = 0
    · rw [if_pos (by simpa using hx)] at h
      cases t with
      | zero => simpa using hx
      | succ j =>
        simp only [List.length_cons] at h
        have hj : j < zRun xs := Nat.lt_of_succ_lt_succ h
        simpa using ih hj
    · rw [if_neg (by simpa using hx)] at h
      simp at h

theorem getD_zero_of_all_zero {r : List ℚ} (h : ∀ x ∈ r, x = 0) (c : ℕ) :
    r.getD c 0 = 0 := by
  rcases hc : r[c]? with _ | x
  · simp [List.getD_eq_getElem?_getD, hc]
  · have := h x (List.getElem?_mem hc)
    simp [List.getD_eq_getElem?_getD, hc, this]

theorem mem_getD_row {td : List (List ℚ)} {t : ℕ} (h : t < td.length) :
    td.getD t [] ∈ td := by
  rcases hc : td[t]? with _ | r
  · rw [List.getElem?_eq_none_iff] at hc
    omega
  · rw [List.getD_eq_getElem?_getD, hc]
    exact List.getElem?_mem hc

theorem rowSumsQ_getD {td : List (List ℚ)} {t : ℕ} (h : t < td.length) :
    (rowSumsQ td).getD t 0 = (td.getD t []).sum := by
  unfold rowSumsQ
  exact getD_map List.sum td t [] 0 h

theorem zero_rows_before {td : List (List ℚ)} (h0 : ∀ r ∈ td, ∀ x ∈ r, 0 ≤ x)
    {t : ℕ} (ht : t < zRun (rowSumsQ td)) : ∀ c, idxQ td t c = 0 := by
  intro c
  have hT : t < td.length := by
    have h1 := zRun_le (rowSumsQ td)
    have h2 := rowSumsQ_length td
    omega
  have hsum : (td.getD t []).sum = 0 := by
    have h3 := getD_zero_of_lt_zRun ht
    rwa [rowSumsQ_getD hT] at h3
  have hrow := all_zero_of_sum_zero (h0 _ (mem_getD_row hT)) hsum
  exact getD_zero_of_all_zero hrow c

theorem activeTime_eq (td : List (List ℚ)) (h0 : ∀ r ∈ td, ∀ x ∈ r, 0 ≤ x) :
    activeTime td = td.length - zRun (rowSumsQ td) := by
  unfold activeTime
  rw [countP_ne_cumsum (rowSumsQ_nonneg h0), rowSumsQ_length]

theorem tdD_eq {td : List (List ℚ)} {D : ℕ} (hD : ∀ r ∈ td, r.length = D)
    (hne : td ≠ []) : tdD td = D := by
  rcases td with _ | ⟨r, rest⟩
  · exact absurd rfl hne
  · exact hD r (List.mem_cons_self _ _)

theorem getD_dropLast {α : Type} (l : List α) (i : ℕ) (d : α)
    (h : i < l.length - 1) : l.dropLast.getD i d = l.getD i d := by
  rw [List.getD_eq_getElem?_getD, List.getD_eq_getElem?_getD, List.getElem?_dropLast]
  simp [h]

theorem getD_replicate_zero {n i : ℕ} (h : i < n) :
    (List.replicate n (0 : ℚ)).getD i 0 = 0 := by
  rw [List.getD_eq_getElem?_getD, List.getElem?_replicate]
  simp [h]

theorem lag1_idx {td : List (List ℚ)} {D : ℕ} (hD : ∀ r ∈ td, r.length = D)
    {t c : ℕ} (ht : t < td.length) (hc : c < D) :
    idxQ (lag1 td) t c
      = idxQ td t c - (if t = 0 then 0 else idxQ td (t - 1) c) := by
  have hne : td ≠ [] := by
    intro h
    subst h
    simp at ht
  have hT1 : t < (List.replicate (tdD td) (0 : ℚ) :: td.dropLast).length := by
    simp only [List.length_cons, List.length_dropLast]
    omega
  have hrowlen : (td.getD t []).length = D := hD _ (mem_getD_row ht)
  unfold lag1 idxQ
  rw [getD_zipWith _ td _ t [] [] [] ht hT1]
  cases t with
  | zero =>
    rw [if_pos rfl, List.getD_cons_zero]
    have hzr : c < (List.replicate (tdD td) (0 : ℚ)).length := by
      rw [List.length_replicate, tdD_eq hD hne]
      exact hc
    rw [getD_zipWith _ _ _ c 0 0 0 (by rw [hrowlen]; exact hc) hzr]
    rw [getD_replicate_zero (by rw [tdD_eq hD hne]; exact hc)]
  | succ j =>
    rw [if_neg (Nat.succ_ne_zero j), List.getD_cons_succ]
    have hjd : j < td.length - 1 := by omega
    rw [getD_dropLast td j [] hjd]
    have hprevlen : (td.getD j []).length = D := hD _ (mem_getD_row (by omega))
    rw [getD_zipWith _ _ _ c 0 0 0 (by rw [hrowlen]; exact hc)
      (by rw [hprevlen]; exact hc)]
    rfl

theorem scaleCore_eq (norm : ℕ) (td : List (List ℚ))
    (h : td.length - activeTime td < td.length) :
    scaleCore norm td = some
      (listMean (List.zipWith (fun s v => s - |v| ^ norm)
        ((List.range (tdD td)).map fun c =>
          ((List.range td.length).map fun t => |idxQ (lag1 td) t c| ^ norm).sum)
        (td.getD (td.length - activeTime td) [])), activeTime td) := by
  unfold scaleCore
  rw [if_pos h]

theorem scaleCore_activeOne {td : List (List ℚ)} {D : ℕ} (norm : ℕ)
    (hnorm : norm ≠ 0) (hD : ∀ r ∈ td, r.length = D)
    (h0 : ∀ r ∈ td, ∀ x ∈ r, 0 ≤ x) (hτ : activeTime td = 1) :
    scaleCore norm td = some (0, 1) := by
  have hzle : zRun (rowSumsQ td) ≤ td.length := by
    have h1 := zRun_le (rowSumsQ td)
    have h2 := rowSumsQ_length td
    omega
  have hat := activeTime_eq td h0
  have hz : zRun (rowSumsQ td) = td.length - 1 := by omega
  have hT1 : 1 ≤ td.length := by omega
  have hne : td ≠ [] := by
    intro h
    subst h
    simp at hT1
  have hcond : td.length - activeTime td < td.length := by omega
  rw [scaleCore_eq norm td hcond, hτ]
  have hstartmem : td.getD (td.length - 1) [] ∈ td := mem_getD_row (by omega)
  have hstartlen : (td.getD (td.length - 1) []).length = D := hD _ hstartmem
  have hDtd : tdD td = D := tdD_eq hD hne
  have hterm : ∀ c < D,
      ((List.range td.length).map fun t => |idxQ (lag1 td) t c| ^ norm).sum
        = |idxQ td (td.length - 1) c| ^ norm := by
    intro c hc
    have hTsplit : td.length = (td.length - 1) + 1 := by omega
    rw [show (List.range td.length).map (fun t => |idxQ (lag1 td) t c| ^ norm)
        = (List.range ((td.length - 1) + 1)).map (fun t => |idxQ (lag1 td) t c| ^ norm)
      from by rw [← hTsplit]]
    rw [List.range_succ, List.map_append, List.sum_append]
    have hzero : ((List.range (td.length - 1)).map
        fun t => |idxQ (lag1 td) t c| ^ norm).sum = 0 := by
      apply List.sum_eq_zero
      intro x hx
      rw [List.mem_map] at hx
      obtain ⟨t, htm, rfl⟩ := hx
      rw [List.mem_range] at htm
      have h1 : idxQ td t c = 0 := zero_rows_before h0 (by omega) c
      have htzero : idxQ (lag1 td) t c = 0 := by
        rw [lag1_idx hD (by omega) hc, h1]
        by_cases ht0 : t = 0
        · rw [if_pos ht0, sub_zero]
        · rw [if_neg ht0]
          have h2 : idxQ td (t - 1) c = 0 := zero_rows_before h0 (by omega) c
          rw [h2, sub_zero]
      rw [htzero, abs_zero]
      exact zero_pow hnorm
    rw [hzero, zero_add]
    simp only [List.map_cons, List.map_nil, List.sum_cons, List.sum_nil, add_zero]
    have hlast : idxQ (lag1 td) (td.length - 1) c = idxQ td (td.length - 1) c := by
      rw [lag1_idx hD (by omega) hc]
      by_cases ht0 : td.length - 1 = 0
      · rw [if_pos ht0, sub_zero]
      · rw [if_neg ht0]
        have h2 : idxQ td (td.length - 1 - 1) c = 0 :=
          zero_rows_before h0 (by omega) c
        rw [h2, sub_zero]
    rw [hlast]
  have hln : ∀ x ∈ List.zipWith (fun s v => s - |v| ^ norm)
      ((List.range (tdD td)).map fun c =>
        ((List.range td.length).map fun t => |idxQ (lag1 td) t c| ^ norm).sum)
      (td.getD (td.length - 1) []), x = 0 := by
    intro x hx
    rw [List.mem_iff_getElem] at hx
    obtain ⟨i, hi, rfl⟩ := hx
    have hiD : i < D := by
      rw [List.length_zipWith, List.length_map, List.length_range, hstartlen, hDtd] at hi
      omega
    rw [List.getElem_zipWith]
    have hb1 : i < ((List.range (tdD td)).map fun c =>
        ((List.range td.length).map fun t => |idxQ (lag1 td) t c| ^ norm).sum).length := by
      rw [List.length_map, List.length_range, hDtd]
      exact hiD
    have hb2 : i < (td.getD (td.length - 1) []).length := by
      rw [hstartlen]
      exact hiD
    have hmapi : ((List.range (tdD td)).map fun c =>
        ((List.range td.length).map fun t => |idxQ (lag1 td) t c| ^ norm).sum)[i]
        = ((List.range td.length).map fun t => |idxQ (lag1 td) t i| ^ norm).sum := by
      rw [List.getElem_map, List.getElem_range]
    have hsti : (td.getD (td.length - 1) [])[i]
        = idxQ td (td.length - 1) i :=
      (List.getD_eq_getElem _ 0 hb2).symm
    rw [hmapi, hsti, hterm i hiD]
    exact sub_self _
  have hmean := List.sum_eq_zero hln
  unfold listMean
  rw [hmean]
  simp

/-- Claim C5 (amended): for a training window with non-negative entries and
exactly one active time step (`active_time = 1`), the scale estimator
returns NaN (0/0) for every metric rather than raising, and that NaN
propagates into a NaN weighted-scaled metric; an entirely inactive window
(`active_time = 0`) instead raises an indexing error (see the
counterexample). -/
theorem C5_degenerate_scale_nan (td : List (List ℚ)) (D : ℕ) (metric : String)
    (value weight : ℚ) (hD : ∀ r ∈ td, r.length = D)
    (h0 : ∀ r ∈ td, ∀ x ∈ r, 0 ≤ x) (hτ : activeTime td = 1) :
    get_metric_scale metric td = some FValR.nan ∧
    eval_weighted_scale metric value td weight = some FValR.nan := by
  have hnorm : metricNorm metric ≠ 0 := by
    unfold metricNorm
    split <;> simp
  have hcore := scaleCore_activeOne (metricNorm metric) hnorm hD h0 hτ
  have hscale : get_metric_scale metric td = some FValR.nan := by
    unfold get_metric_scale scaleVal
    rw [hcore]
    simp [fdivQ, powInv]
  refine ⟨hscale, ?_⟩
  unfold eval_weighted_scale
  rw [hscale]
  simp [fdivR]

/-- Witness for C5 at a concrete one-step window. -/
theorem C5_witness :
    get_metric_scale "mae" [[1]] = some FValR.nan ∧
    eval_weighted_scale "mae" 1 [[1]] 1 = some FValR.nan :=
  C5_degenerate_scale_nan [[1]] 1 "mae" 1 1 (by decide) (by decide)
    (by simp [activeTime, cumsum, rowSumsQ, List.countP_cons, List.countP_nil])

/-- Counterexample to C5 as stated: an all-zero window (`active_time = 0`)
raises an index error in `gather` instead of returning a value, and a
window with `active_time = 1` but a *positive* lag-norm (possible with
negative entries) yields a `+∞` scale whose weighted-scaled metric is the
finite value 0, not a non-finite one. -/
theorem C5_counterexample :
    get_metric_scale "mae" [[0], [0]] = none ∧
    get_metric_scale "mae" [[5], [-5]] = some FValR.pinf ∧
    eval_weighted_scale "mae" 1 [[5], [-5]] 1 = some (FValR.fin 0) := by
  have hs : ("mae" : String) ≠ "rmse" := by decide
  refine ⟨?_, ?_, ?_⟩ <;>
    norm_num [get_metric_scale, eval_weighted_scale, scaleVal, scaleCore,
      activeTime, cumsum, rowSumsQ, metricNorm, fdivQ, powInv, fdivR, lag1,
      tdD, idxQ, listMean, List.countP_cons, List.countP_nil,
      List.range_succ, abs_of_nonneg, abs_of_nonpos, hs]

/-- Claim C3's notion of the start of activity: the first time index at
which the cumulative summed response is non-zero. -/
def firstActiveIdx (td : List (List ℚ)) : ℕ :=
  (cumsum (rowSumsQ td)).findIdx fun x => x ≠ 0

/-- Claim C3's active-step count: the number of time steps from the first
active index through the end of the window. -/
def spec_active_time (td : List (List ℚ)) : ℕ := td.length - firstActiveIdx td

/-- Claim C3's scale formula before the final `^(1/p)`: the sum over time
of `|lag-1 difference|^p` (one implicit zero step padded in front), minus
`|value at the first active time step|^p`, averaged over channels, divided
by `active_time - 1`. -/
def spec_scale_base (p : ℕ) (td : List (List ℚ)) : ℚ :=
  listMean ((List.range (tdD td)).map fun c =>
    ((List.range td.length).map fun t =>
      |idxQ td t c - (if t = 0 then 0 else idxQ td (t - 1) c)| ^ p).sum
    - |idxQ td (firstActiveIdx td) c| ^ p)
  / ((spec_active_time td : ℚ) - 1)

theorem findIdx_ne_eq_zRun (l : List ℚ) :
    (l.findIdx fun x => x ≠ 0) = zRun l := by
  induction l with
  | nil => rfl
  | cons x xs ih =>
    by_cases hx : x = 0
    · have h1 : (decide (x ≠ 0)) = false := by simpa using hx
      rw [List.findIdx_cons, h1]
      rw [zRun, List.takeWhile_cons, if_pos (by simpa using hx)]
      simp only [List.length_cons, cond_false]
      rw [ih]
      rfl
    · have h1 : (decide (x ≠ 0)) = true := by simpa using hx
      rw [List.findIdx_cons, h1]
      rw [zRun, List.takeWhile_cons, if_neg (by simpa using hx)]
      rfl

theorem zRun_cumsum {l : List ℚ} (h : ∀ x ∈ l, 0 ≤ x) :
    zRun (cumsum l) = zRun l := by
  induction l with
  | nil => rfl
  | cons x xs ih =>
    have hxs : ∀ y ∈ xs, 0 ≤ y := fun y hy => h y (List.mem_cons_of_mem _ hy)
    by_cases hx : x = 0
    · subst hx
      rw [cumsum, map_zero_add]
      rw [zRun, zRun, List.takeWhile_cons, List.takeWhile_cons]
      rw [if_pos (by simp), if_pos (by simp)]
      simp only [List.length_cons]
      rw [← zRun, ← zRun, ih hxs]
    · rw [cumsum, zRun, zRun, List.takeWhile_cons, List.takeWhile_cons]
      rw [if_neg (by simpa using hx), if_neg (by simpa using hx)]

theorem firstActiveIdx_eq {td : List (List ℚ)}
    (h0 : ∀ r ∈ td, ∀ x ∈ r, 0 ≤ x) :
    firstActiveIdx td = zRun (rowSumsQ td) := by
  unfold firstActiveIdx
  rw [findIdx_ne_eq_zRun, zRun_cumsum (rowSumsQ_nonneg h0)]

theorem scaleVal_spec {td : List (List ℚ)} {D : ℕ} (p : ℕ)
    (hD : ∀ r ∈ td, r.length = D) (h0 : ∀ r ∈ td, ∀ x ∈ r, 0 ≤ x)
    (hτ : 2 ≤ activeTime td) :
    scaleVal p td = some (FValQ.fin (spec_scale_base p td)) := by
  have hzle : zRun (rowSumsQ td) ≤ td.length := by
    have h1 := zRun_le (rowSumsQ td)
    have h2 := rowSumsQ_length td
    omega
  have hat := activeTime_eq td h0
  have hT2 : 2 ≤ td.length := by omega
  have hne : td ≠ [] := by
    intro h
    subst h
    simp at hT2
  have hDtd : tdD td = D := tdD_eq hD hne
  have hk : td.length - activeTime td = firstActiveIdx td := by
    rw [firstActiveIdx_eq h0]
    omega
  have hkT : firstActiveIdx td < td.length := by
    rw [firstActiveIdx_eq h0]
    omega
  have hcond : td.length - activeTime td < td.length := by omega
  have hsat : spec_active_time td = activeTime td := by
    unfold spec_active_time
    rw [firstActiveIdx_eq h0]
    omega
  have hstartlen : (td.getD (firstActiveIdx td) []).length = D :=
    hD _ (mem_getD_row hkT)
  have hLN : List.zipWith (fun s v => s - |v| ^ p)
      ((List.range (tdD td)).map fun c =>
        ((List.range td.length).map fun t => |idxQ (lag1 td) t c| ^ p).sum)
      (td.getD (firstActiveIdx td) [])
      = (List.range (tdD td)).map fun c =>
        ((List.range td.length).map fun t =>
          |idxQ td t c - (if t = 0 then 0 else idxQ td (t - 1) c)| ^ p).sum
        - |idxQ td (firstActiveIdx td) c| ^ p := by
    apply List.ext_getElem
    · rw [List.length_zipWith, List.length_map, List.length_range,
        List.length_map, List.length_range, hstartlen, hDtd]
      exact min_self D
    · intro i h1 h2
      rw [List.length_zipWith, List.length_map, List.length_range, hstartlen,
        hDtd, min_self] at h1
      rw [List.getElem_zipWith, List.getElem_map, List.getElem_range,
        List.getElem_map, List.getElem_range]
      have hb2 : i < (td.getD (firstActiveIdx td) []).length := by
        rw [hstartlen]
        exact h1
      have hsti : (td.getD (firstActiveIdx td) [])[i]
          = idxQ td (firstActiveIdx td) i :=
        (List.getD_eq_getElem _ 0 hb2).symm
      rw [hsti]
      congr 1
      refine congrArg List.sum (List.map_congr_left fun t ht => ?_)
      rw [List.mem_range] at ht
      rw [lag1_idx hD ht h1]
  have hτQ : ((activeTime td : ℚ) - 1) ≠ 0 := by
    have h2 : (2 : ℚ) ≤ (activeTime td : ℚ) := by exact_mod_cast hτ
    intro hc
    rw [sub_eq_zero] at hc
    rw [hc] at h2
    norm_num at h2
  simp only [scaleVal, scaleCore_eq p td hcond, hk, hLN, Option.map_some',
    Option.some.injEq]
  unfold fdivQ
  rw [if_neg hτQ]
  unfold spec_scale_base
  rw [hsat]

theorem spec_scale_base_nonneg {td : List (List ℚ)} (p : ℕ)
    (h0 : ∀ r ∈ td, ∀ x ∈ r, 0 ≤ x) (hτ : 2 ≤ activeTime td) :
    0 ≤ spec_scale_base p td := by
  have hzle : zRun (rowSumsQ td) ≤ td.length := by
    have h1 := zRun_le (rowSumsQ td)
    have h2 := rowSumsQ_length td
    omega
  have hat := activeTime_eq td h0
  have hkz := firstActiveIdx_eq h0
  have hkT : firstActiveIdx td < td.length := by omega
  unfold spec_scale_base
  refine div_nonneg (listMean_nonneg ?_) ?_
  · intro x hx
    rw [List.mem_map] at hx
    obtain ⟨c, _, rfl⟩ := hx
    rw [sub_nonneg]
    have hlag : |idxQ td (firstActiveIdx td) c
        - (if firstActiveIdx td = 0 then 0
           else idxQ td (firstActiveIdx td - 1) c)| ^ p
        = |idxQ td (firstActiveIdx td) c| ^ p := by
      by_cases hk0 : firstActiveIdx td = 0
      · rw [if_pos hk0, sub_zero]
      · rw [if_neg hk0]
        have hz : idxQ td (firstActiveIdx td - 1) c =
            0 := zero_rows_before h0 (by omega) c
        rw [hz, sub_zero]
    refine le_trans (le_of_eq hlag.symm) (List.single_le_sum ?_ _ ?_)
    · intro y hy
      rw [List.mem_map] at hy
      obtain ⟨t, _, rfl⟩ := hy
      positivity
    · exact List.mem_map_of_mem _ (List.mem_range.2 hkT)
  · have h2 : (2 : ℚ) ≤ (spec_active_time td : ℚ) := by
      have : 2 ≤ spec_active_time td := by
        unfold spec_active_time
        omega
      exact_mod_cast this
    linarith

/-- Claim C3 (amended): for training data with non-negative entries and at
least two active time steps, the scale estimator returns exactly
`((sum over time of |lag-1 difference|^p) - |value at the first active time
step|^p, averaged over channels, divided by (active_time - 1))^(1/p)` with
`p = 2` for `rmse` and `p = 1` otherwise, where lag-1 differences use one
implicit zero step of padding and `active_time` counts the steps from the
first index with non-zero cumulative summed response through the end. -/
theorem C3_metric_scale_formula (td : List (List ℚ)) (D : ℕ) (metric : String)
    (hD : ∀ r ∈ td, r.length = D) (h0 : ∀ r ∈ td, ∀ x ∈ r, 0 ≤ x)
    (hτ : 2 ≤ activeTime td) :
    get_metric_scale metric td
      = some (if metric = "rmse"
          then FValR.fin (Real.sqrt ((spec_scale_base 2 td : ℚ) : ℝ))
          else FValR.fin ((spec_scale_base 1 td : ℚ) : ℝ)) := by
  by_cases hm : metric = "rmse"
  · rw [if_pos hm]
    unfold get_metric_scale
    have h2 : metricNorm metric = 2 := by
      unfold metricNorm
      rw [if_pos hm]
    rw [h2, scaleVal_spec 2 hD h0 hτ]
    have hnn : ¬ (spec_scale_base 2 td < 0) :=
      not_lt.2 (spec_scale_base_nonneg 2 h0 hτ)
    rw [Option.map_some']
    simp only [powInv]
    rw [if_pos trivial, if_neg hnn]
  · rw [if_neg hm]
    unfold get_metric_scale
    have h1 : metricNorm metric = 1 := by
      unfold metricNorm
      rw [if_neg hm]
    rw [h1, scaleVal_spec 1 hD h0 hτ]
    simp [powInv]

/-- Witness for C3 at a concrete non-negative window with two active
steps. -/
theorem C3_witness :
    get_metric_scale "mae" [[1], [0]]
      = some (if "mae" = "rmse"
          then FValR.fin (Real.sqrt ((spec_scale_base 2 [[1], [0]] : ℚ) : ℝ))
          else FValR.fin ((spec_scale_base 1 [[1], [0]] : ℚ) : ℝ)) :=
  C3_metric_scale_formula [[1], [0]] 1 "mae" (by decide) (by decide)
    (by simp [activeTime, cumsum, rowSumsQ, List.countP_cons, List.countP_nil])

/-- Counterexample to C3 as stated: with a negative entry
(series `[1, -1, 5]`) the code's `active_time` (a count of non-zero
cumulative sums) differs from the claim's "first non-zero index through the
end", so the code returns scale 8 where the claim's formula gives 4; and on
a window with a single active step the code returns NaN where the claim's
formula (exact arithmetic) gives 0. -/
theorem C3_counterexample :
    get_metric_scale "mae" [[1], [-1], [5]] = some (FValR.fin ((8 : ℚ) : ℝ)) ∧
    spec_scale_base 1 [[1], [-1], [5]] = 4 ∧
    get_metric_scale "mae" [[1]] = some FValR.nan ∧
    spec_scale_base 1 [[1]] = 0 := by
  have hs : ("mae" : String) ≠ "rmse" := by decide
  refine ⟨?_, ?_, ?_, ?_⟩ <;>
    norm_num [get_metric_scale, scaleVal, scaleCore, activeTime, cumsum,
      rowSumsQ, metricNorm, fdivQ, powInv, lag1, tdD, idxQ, listMean,
      spec_scale_base, spec_active_time, firstActiveIdx, List.findIdx_cons,
      List.countP_cons, List.countP_nil, List.range_succ,
      abs_of_nonneg, abs_of_nonpos, hs]

theorem zip_map_pair {α β γ : Type} (f : α → β → γ) (a : List α) (b : List β) :
    (a.zip b).map (fun p => f p.1 p.2) = List.zipWith f a b := by
  induction a generalizing b with
  | nil => simp
  | cons x xs ih =>
    cases b with
    | nil => simp
    | cons y ys => simp [ih]

theorem mapM_eq_map {α β : Type} (f : α → Option β) (g : α → β) (l : List α)
    (h : ∀ x ∈ l, f x = some (g x)) : l.mapM f = some (l.map g) := by
  induction l with
  | nil => rfl
  | cons x xs ih =>
    rw [List.mapM_cons, h x (List.mem_cons_self _ _),
      ih fun y hy => h y (List.mem_cons_of_mem _ hy)]
    rfl

theorem bAlign_eq_zip {α : Type} (a b : List α) (h : a.length = b.length) :
    bAlign a b = some (a.zip b) := by
  unfold bAlign
  rw [if_pos h]

theorem bZip2_rect (f : ℚ → ℚ → ℚ) (a b : List (List ℚ)) (D : ℕ)
    (hlen : a.length = b.length) (ha : ∀ r ∈ a, r.length = D)
    (hb : ∀ r ∈ b, r.length = D) :
    bZip2 f a b = some (List.zipWith (fun ra rb => List.zipWith f ra rb) a b) := by
  unfold bZip2
  rw [bAlign_eq_zip a b hlen]
  show ((a.zip b).mapM fun rr =>
    Option.map (List.map fun p => f p.1 p.2) (bAlign rr.1 rr.2)) = _
  rw [mapM_eq_map _ (fun rr => List.zipWith f rr.1 rr.2) _ ?_]
  · exact congrArg some (zip_map_pair _ a b)
  · intro rr hrr
    obtain ⟨h1, h2⟩ := List.of_mem_zip hrr
    have hre : rr.1.length = rr.2.length := by rw [ha _ h1, hb _ h2]
    rw [bAlign_eq_zip _ _ hre, Option.map_some']
    exact congrArg some (zip_map_pair _ _ _)

/-- Claim C7's formula: the square root of the mean over the time and
channel axes of the squared deviation between the per-time-step mean across
samples and truth. -/
noncomputable def spec_rmse (pred : List (List (List ℚ)))
    (truth : List (List ℚ)) : ℝ :=
  Real.sqrt ((flatMean ((List.range truth.length).map fun t =>
    (List.range (truth.headD []).length).map fun d =>
      (listMean (sampleAt pred t d) - idxQ truth t d) ^ 2) : ℚ) : ℝ)

theorem idxQ_eq_getElem {m : List (List ℚ)} {t d : ℕ} (ht : t < m.length)
    (hd : d < m[t].length) : idxQ m t d = m[t][d] := by
  unfold idxQ
  rw [List.getD_eq_getElem m [] ht, List.getD_eq_getElem _ 0 hd]

theorem meanDim0_rows (pred : List (List (List ℚ))) :
    ∀ r ∈ meanDim0 pred, r.length = stackD pred := by
  intro r hr
  unfold meanDim0 at hr
  rw [List.mem_map] at hr
  obtain ⟨t, _, rfl⟩ := hr
  simp

theorem idxQ_range_matrix (h : ℕ → ℕ → ℚ) (T D t d : ℕ) (ht : t < T)
    (hd : d < D) :
    idxQ ((List.range T).map fun t => (List.range D).map fun d => h t d) t d
      = h t d := by
  unfold idxQ
  rw [getD_map_range _ _ _ _ ht, getD_map_range _ _ _ _ hd]

theorem zipWith_rows_to_range (f : ℚ → ℚ → ℚ) (a b : List (List ℚ)) (T D : ℕ)
    (hLa : a.length = T) (hLb : b.length = T)
    (ha : ∀ r ∈ a, r.length = D) (hb : ∀ r ∈ b, r.length = D) :
    List.zipWith (fun ra rb => List.zipWith f ra rb) a b
      = (List.range T).map fun t => (List.range D).map fun d =>
          f (idxQ a t d) (idxQ b t d) := by
  apply List.ext_getElem
  · rw [List.length_zipWith, hLa, hLb, min_self, List.length_map,
      List.length_range]
  · intro t h1 h2
    rw [List.length_zipWith, hLa, hLb, min_self] at h1
    rw [List.getElem_zipWith, List.getElem_map, List.getElem_range]
    have hta : t < a.length := by omega
    have htb : t < b.length := by omega
    have hal : a[t].length = D := ha _ (List.getElem_mem _)
    have hbl : b[t].length = D := hb _ (List.getElem_mem _)
    apply List.ext_getElem
    · rw [List.length_zipWith, hal, hbl, min_self, List.length_map,
        List.length_range]
    · intro d hd1 hd2
      rw [List.length_zipWith, hal, hbl, min_self] at hd1
      rw [List.getElem_zipWith, List.getElem_map, List.getElem_range]
      congr 1
      · exact (idxQ_eq_getElem hta (by rw [hal]; exact hd1)).symm
      · exact (idxQ_eq_getElem htb (by rw [hbl]; exact hd1)).symm

/-- Claim C7: for matching trailing shapes, RMSE is the square root of the
mean over the time and channel axes of the squared deviation between the
per-time-step mean across samples and truth — the root-mean-square of the
ensemble mean's error (not a mean of per-sample RMSEs), one value per
batch element. -/
theorem C7_rmse_is_rms_of_ensemble_mean (pred : List (List (List ℚ)))
    (truth : List (List ℚ)) (T D : ℕ) (hne : pred ≠ [])
    (hpred : ∀ s ∈ pred, s.length = T ∧ ∀ r ∈ s, r.length = D)
    (hT : truth.length = T) (htr : ∀ r ∈ truth, r.length = D) :
    eval_rmse pred truth = some (spec_rmse pred truth) := by
  have hst : stackT pred = T := by
    rcases pred with _ | ⟨s0, ps⟩
    · exact absurd rfl hne
    · exact (hpred s0 (List.mem_cons_self _ _)).1
  rcases Nat.eq_zero_or_pos T with hT0 | hT1
  · have htnil : truth = [] := List.length_eq_zero.1 (by omega)
    subst htnil
    have hmnil : meanDim0 pred = [] := by
      unfold meanDim0
      rw [hst, hT0]
      rfl
    have hz : bZip2 (fun x y => x - y) (meanDim0 pred) [] = some [] := by
      rw [hmnil]
      rfl
    have hev : eval_rmse pred []
        = (bZip2 (fun x y => x - y) (meanDim0 pred) []).bind
          (fun e => some (Real.sqrt
            ((flatMean (e.map (List.map fun x => x * x)) : ℚ) : ℝ))) := rfl
    rw [hev, hz, Option.some_bind]
    unfold spec_rmse
    norm_num [flatMean, listMean]
  · have hsd : stackD pred = D := by
      rcases pred with _ | ⟨s0, ps⟩
      · exact absurd rfl hne
      · have h1 := (hpred s0 (List.mem_cons_self _ _)).1
        rcases s0 with _ | ⟨r0, rs⟩
        · simp at h1
          omega
        · exact (hpred _ (List.mem_cons_self _ _)).2 r0 (List.mem_cons_self _ _)
    have hhd : (truth.headD []).length = D := by
      rcases truth with _ | ⟨r0, rs⟩
      · simp at hT
        omega
      · exact htr r0 (List.mem_cons_self _ _)
    have hmlen : (meanDim0 pred).length = T := by
      unfold meanDim0
      rw [List.length_map, List.length_range, hst]
    have hmrows : ∀ r ∈ meanDim0 pred, r.length = D := fun r hr => by
      rw [meanDim0_rows pred r hr, hsd]
    have he := bZip2_rect (fun x y => x - y) (meanDim0 pred) truth D
      (by rw [hmlen, hT]) hmrows htr
    have hzip := zipWith_rows_to_range (fun x y => x - y) (meanDim0 pred)
      truth T D hmlen hT hmrows htr
    have hmd : ∀ t < T, ∀ d < D,
        idxQ (meanDim0 pred) t d = listMean (sampleAt pred t d) := by
      intro t ht d hd
      unfold meanDim0
      rw [hst, hsd]
      exact idxQ_range_matrix _ T D t d ht hd
    have hev : eval_rmse pred truth
        = (bZip2 (fun x y => x - y) (meanDim0 pred) truth).bind
          (fun e => some (Real.sqrt
            ((flatMean (e.map (List.map fun x => x * x)) : ℚ) : ℝ))) := rfl
    rw [hev, he, Option.some_bind]
    unfold spec_rmse
    have hAB : ((List.zipWith (fun ra rb => List.zipWith (fun x y => x - y) ra rb)
          (meanDim0 pred) truth).map (List.map fun x => x * x))
        = (List.range truth.length).map fun t =>
            (List.range (truth.headD []).length).map fun d =>
              (listMean (sampleAt pred t d) - idxQ truth t d) ^ 2 := by
      rw [hzip, hT, hhd, List.map_map]
      refine List.map_congr_left fun t htm => ?_
      rw [List.mem_range] at htm
      show ((List.range D).map fun d =>
        idxQ (meanDim0 pred) t d - idxQ truth t d).map (fun x => x * x) = _
      rw [List.map_map]
      refine List.map_congr_left fun d hdm => ?_
      rw [List.mem_range] at hdm
      show (idxQ (meanDim0 pred) t d - idxQ truth t d)
          * (idxQ (meanDim0 pred) t d - idxQ truth t d) = _
      rw [hmd t htm d hdm, pow_two]
    rw [hAB]

/-- Witness for C7 at a concrete ensemble/truth pair of matching shape. -/
theorem C7_witness :
    eval_rmse [[[1], [2]]] [[1], [1]] = some (spec_rmse [[[1], [2]]] [[1], [1]]) :=
  C7_rmse_is_rms_of_ensemble_mean [[[1], [2]]] [[1], [1]] 2 1 (by decide)
    (by decide) (by decide) (by decide)

theorem zip_map_self {α β : Type} (l : List α) (h : α → β) :
    l.zip (l.map h) = l.map fun x => (x, h x) := by
  induction l with
  | nil => rfl
  | cons x xs ih => simp [ih]

theorem headD_eq_getD {α : Type} (l : List α) (d : α) : l.headD d = l.getD 0 d := by
  cases l <;> rfl

/-- The claim's quantile-level set, as enumerated by the spec. -/
def specQuantLevels : List ℚ := [0.005, 0.165, 0.25, 0.5, 0.75, 0.835, 0.975, 0.995]

/-- The claim's asymmetric weighting of a signed quantile error: `-q` where
the error is ≤ 0 and `1 - q` otherwise. -/
def specPinball (q err : ℚ) : ℚ := (if err ≤ 0 then -q else 1 - q) * err

/-- Claim C2's pinball-loss formula: for each quantile level, the empirical
quantile of the ensemble at each time step, the signed error versus truth,
the asymmetric weight, averaged across the quantile levels and then over
the time and channel axes. -/
def spec_pl (pred : List (List (List ℚ))) (truth : List (List ℚ)) : ℚ :=
  flatMean ((List.range truth.length).map fun t =>
    (List.range (truth.headD []).length).map fun d =>
      listMean (specQuantLevels.map fun q =>
        specPinball q (pyroQuantile1 q (sampleAt pred t d) - idxQ truth t d)))

theorem meanStack_of_range_stack (g : ℚ → ℕ → ℕ → ℚ) (qs : List ℚ) (T D : ℕ)
    (hqs : qs ≠ []) (hT : 1 ≤ T) :
    meanStack (qs.map fun u => (List.range T).map fun t =>
      (List.range D).map fun d => g u t d)
      = (List.range T).map fun t => (List.range D).map fun d =>
          listMean (qs.map fun u => g u t d) := by
  have h1 : stackT (qs.map fun u => (List.range T).map fun t =>
      (List.range D).map fun d => g u t d) = T := by
    unfold stackT
    rcases qs with _ | ⟨q0, rest⟩
    · exact absurd rfl hqs
    · simp
  have h2 : stackD (qs.map fun u => (List.range T).map fun t =>
      (List.range D).map fun d => g u t d) = D := by
    unfold stackD
    rcases qs with _ | ⟨q0, rest⟩
    · exact absurd rfl hqs
    · simp only [List.map_cons, List.headD_cons]
      rw [headD_eq_getD, getD_map_range _ _ _ _ (by omega)]
      simp
  unfold meanStack
  rw [h1, h2]
  refine List.map_congr_left fun t htm => ?_
  rw [List.mem_range] at htm
  refine List.map_congr_left fun d hdm => ?_
  rw [List.mem_range] at hdm
  congr 1
  rw [List.map_map]
  refine List.map_congr_left fun u _ => ?_
  show idxQ ((List.range T).map fun t =>
    (List.range D).map fun d => g u t d) t d = g u t d
  exact idxQ_range_matrix _ T D t d htm hdm

/-- Claim C2 (amended): for matching shapes, `eval_pl` computes, for each
quantile level in the spec-enumerated set of 8 levels, the empirical
(linearly interpolated) quantile of the ensemble at each time step, the
signed error versus truth weighted by `-q` where the error is ≤ 0 and
`1 - q` otherwise, averaged across the quantile levels and then over the
time and channel axes. -/
theorem C2_pinball_loss_formula (pred : List (List (List ℚ)))
    (truth : List (List ℚ)) (T D : ℕ) (hne : pred ≠ [])
    (hpred : ∀ s ∈ pred, s.length = T ∧ ∀ r ∈ s, r.length = D)
    (hT : truth.length = T) (htr : ∀ r ∈ truth, r.length = D) :
    M5Data_quantiles = specQuantLevels ∧
    eval_pl pred truth = some (spec_pl pred truth) := by
  refine ⟨rfl, ?_⟩
  have hst : stackT pred = T := by
    rcases pred with _ | ⟨s0, ps⟩
    · exact absurd rfl hne
    · exact (hpred s0 (List.mem_cons_self _ _)).1
  have hev : eval_pl pred truth
      = ((quantileDim0 M5Data_quantiles pred).mapM fun sl =>
          bZip2 (fun x y => x - y) sl truth).bind
        (fun errs => some (flatMean (meanStack
          ((M5Data_quantiles.zip errs).map fun ue =>
            ue.2.map (List.map fun x =>
              (if x ≤ 0 then -ue.1 else 1 - ue.1) * x))))) := rfl
  rcases Nat.eq_zero_or_pos T with hT0 | hT1
  · subst hT0
    have htnil : truth = [] := List.length_eq_zero.1 hT
    subst htnil
    have hq : quantileDim0 M5Data_quantiles pred
        = M5Data_quantiles.map fun u => ([] : List (List ℚ)) := by
      unfold quantileDim0
      rw [hst]
      rfl
    rw [hev, hq]
    rw [mapM_eq_map _ (fun sl => ([] : List (List ℚ))) _
      (by intro sl hsl; rw [List.mem_map] at hsl; obtain ⟨u, _, rfl⟩ := hsl; rfl)]
    rw [Option.some_bind]
    norm_num [M5Data_quantiles, meanStack, stackT, stackD, flatMean, listMean,
      spec_pl]
  · have hsd : stackD pred = D := by
      rcases pred with _ | ⟨s0, ps⟩
      · exact absurd rfl hne
      · have h1 := (hpred s0 (List.mem_cons_self _ _)).1
        rcases s0 with _ | ⟨r0, rs⟩
        · simp at h1
          omega
        · exact (hpred _ (List.mem_cons_self _ _)).2 r0 (List.mem_cons_self _ _)
    have hhd : (truth.headD []).length = D := by
      rcases truth with _ | ⟨r0, rs⟩
      · simp at hT
        omega
      · exact htr r0 (List.mem_cons_self _ _)
    have hq : quantileDim0 M5Data_quantiles pred
        = M5Data_quantiles.map fun u => (List.range T).map fun t =>
            (List.range D).map fun d => pyroQuantile1 u (sampleAt pred t d) := by
      unfold quantileDim0
      rw [hst, hsd]
    rw [hev, hq]
    rw [mapM_eq_map _ (fun sl => List.zipWith
        (fun ra rb => List.zipWith (fun x y => x - y) ra rb) sl truth) _ ?_]
    swap
    · intro sl hsl
      rw [List.mem_map] at hsl
      obtain ⟨u, _, rfl⟩ := hsl
      refine bZip2_rect _ _ _ D ?_ ?_ htr
      · rw [List.length_map, List.length_range, hT]
      · intro r hr
        rw [List.mem_map] at hr
        obtain ⟨t, _, rfl⟩ := hr
        rw [List.length_map, List.length_range]
    rw [Option.some_bind, List.map_map, zip_map_self, List.map_map]
    have hWe : M5Data_quantiles.map
        ((fun ue : ℚ × List (List ℚ) => ue.2.map (List.map fun x =>
          (if x ≤ 0 then -ue.1 else 1 - ue.1) * x)) ∘ fun u =>
            (u, ((fun sl => List.zipWith
              (fun ra rb => List.zipWith (fun x y => x - y) ra rb) sl truth) ∘
              fun u => (List.range T).map fun t =>
                (List.range D).map fun d =>
                  pyroQuantile1 u (sampleAt pred t d)) u))
        = M5Data_quantiles.map fun u => (List.range T).map fun t =>
            (List.range D).map fun d =>
              (if (pyroQuantile1 u (sampleAt pred t d) - idxQ truth t d) ≤ 0
                then -u else 1 - u)
              * (pyroQuantile1 u (sampleAt pred t d) - idxQ truth t d) := by
      refine List.map_congr_left fun u _ => ?_
      show (List.zipWith (fun ra rb => List.zipWith (fun x y => x - y) ra rb)
          ((List.range T).map fun t => (List.range D).map fun d =>
            pyroQuantile1 u (sampleAt pred t d)) truth).map
          (List.map fun x => (if x ≤ 0 then -u else 1 - u) * x) = _
      rw [zipWith_rows_to_range _ _ _ T D
        (by rw [List.length_map, List.length_range]) hT
        (fun r hr => by
          rw [List.mem_map] at hr
          obtain ⟨t, _, rfl⟩ := hr
          simp) htr]
      rw [List.map_map]
      refine List.map_congr_left fun t htm => ?_
      rw [List.mem_range] at htm
      show ((List.range D).map fun d =>
          idxQ ((List.range T).map fun t => (List.range D).map fun d =>
            pyroQuantile1 u (sampleAt pred t d)) t d - idxQ truth t d).map
          (fun x => (if x ≤ 0 then -u else 1 - u) * x) = _
      rw [List.map_map]
      refine List.map_congr_left fun d hdm => ?_
      rw [List.mem_range] at hdm
      show (if (idxQ ((List.range T).map fun t => (List.range D).map fun d =>
            pyroQuantile1 u (sampleAt pred t d)) t d - idxQ truth t d) ≤ 0
          then -u else 1 - u)
          * (idxQ ((List.range T).map fun t => (List.range D).map fun d =>
            pyroQuantile1 u (sampleAt pred t d)) t d - idxQ truth t d) = _
      rw [idxQ_range_matrix _ T D t d htm hdm]
    rw [hWe]
    rw [meanStack_of_range_stack _ _ T D (by simp [M5Data_quantiles]) hT1]
    unfold spec_pl
    rw [hT, hhd]
    rfl

/-- Witness for C2 at a concrete ensemble/truth pair of matching shape. -/
theorem C2_witness :
    M5Data_quantiles = specQuantLevels ∧
    eval_pl [[[1]]] [[1]] = some (spec_pl [[[1]]] [[1]]) :=
  C2_pinball_loss_formula [[[1]]] [[1]] 1 1 (by decide) (by decide) (by decide)
    (by decide)

/-- Counterexample to C2 as stated: the spec-enumerated quantile-level set
has 8 elements, not 9. -/
theorem C2_counterexample :
    M5Data_quantiles.length = 8 ∧ M5Data_quantiles.length ≠ 9 := by decide

/-- The per-element empirical CRPS computed by `pyro.ops.stats.crps_empirical`:
the mean absolute error of the samples against the truth value, minus the
sorted-sample correction `Σ (s[i+1] - s[i]) * (i+1) * (n-1-i) / n²`
(`diff * weight`, summed over the sample axis and divided by
`num_samples ** 2`).  For a single sample the code returns the absolute
error early; the correction sum is empty there, so the formula coincides. -/
def crpsAt (l : List ℚ) (y : ℚ) : ℚ :=
  listMean (l.map fun x => |x - y|)
    - (((List.range (l.length - 1)).map fun i =>
        ((sortAsc l).getD (i + 1) 0 - (sortAsc l).getD i 0)
          * (((i + 1) * (l.length - 1 - i) : ℕ) : ℚ)).sum) / ((l.length : ℚ) ^ 2)

/-- `crps_empirical(pred, truth)` from `pyro.ops.stats` for a batchless
`num_samples × duration × channels` ensemble: the library first checks that
the prediction's shape after the sample axis equals the truth's shape
exactly (no broadcasting; the `(1,)*` padding in its check concerns extra
sample axes, which do not arise at these fixed ranks) and raises a
`ValueError` otherwise, embedded as `none`; on success it returns the
matrix of per-element empirical CRPS values. -/
def crps_empirical (pred : List (List (List ℚ))) (truth : List (List ℚ)) :
    Option (List (List ℚ)) :=
  if stackT pred = truth.length ∧ stackD pred = (truth.headD []).length then
    some ((List.range truth.length).map fun t =>
      (List.range (truth.headD []).length).map fun d =>
        crpsAt (sampleAt pred t d) (idxQ truth t d))
  else none

/-- `eval_crps(pred, truth)` from `evaluate.py`: the empirical CRPS matrix
computed by the library function `crps_empirical`, flatten-mean over the
trailing two axes. -/
def eval_crps (pred : List (List (List ℚ))) (truth : List (List ℚ)) :
    Option ℚ := do
  let c ← crps_empirical pred truth
  pure (flatMean c)

theorem mapM_isSome {α β : Type} (f : α → Option β) (l : List α)
    (h : ∀ x ∈ l, ∃ y, f x = some y) : ∃ out, l.mapM f = some out := by
  induction l with
  | nil => exact ⟨[], rfl⟩
  | cons x xs ih =>
    obtain ⟨y, hy⟩ := h x (List.mem_cons_self _ _)
    obtain ⟨out, hout⟩ := ih fun z hz => h z (List.mem_cons_of_mem _ hz)
    refine ⟨y :: out, ?_⟩
    rw [List.mapM_cons, hy, hout]
    rfl

theorem mapM_eq_none {α β : Type} (f : α → Option β) (l : List α) (x : α)
    (hx : x ∈ l) (hfx : f x = none) : l.mapM f = none := by
  induction l with
  | nil => exact absurd hx (List.not_mem_nil x)
  | cons y ys ih =>
    rw [List.mapM_cons]
    rcases List.mem_cons.1 hx with h | h
    · rw [h] at hfx
      rw [hfx]
      rfl
    · cases hfy : f y with
      | none => rfl
      | some v =>
        rw [ih h]
        rfl

theorem bAlign_some_mem {α : Type} (a b : List α)
    (h : a.length = b.length ∨ a.length = 1 ∨ b.length = 1) :
    ∃ v, bAlign a b = some v ∧ ∀ p ∈ v, p.1 ∈ a ∧ p.2 ∈ b := by
  by_cases heq : a.length = b.length
  · exact ⟨a.zip b, bAlign_eq_zip a b heq, fun p hp => List.of_mem_zip hp⟩
  · rcases h with h | h1 | h1
    · exact absurd h heq
    · rcases a with _ | ⟨x, xs⟩
      · simp at h1
      · rcases xs with _ | ⟨x2, xs2⟩
        · refine ⟨b.map fun y => (x, y), ?_, ?_⟩
          · unfold bAlign
            rw [if_neg heq]
            rcases b with _ | ⟨y, ys⟩
            · rfl
            · rcases ys with _ | ⟨y2, ys2⟩
              · exact absurd rfl heq
              · rfl
          · intro p hp
            rw [List.mem_map] at hp
            obtain ⟨y, hy, rfl⟩ := hp
            exact ⟨List.mem_cons_self _ _, hy⟩
        · simp at h1
    · rcases b with _ | ⟨y, ys⟩
      · simp at h1
      · rcases ys with _ | ⟨y2, ys2⟩
        · refine ⟨a.map fun x => (x, y), ?_, ?_⟩
          · unfold bAlign
            rw [if_neg heq]
            rcases a with _ | ⟨x, xs⟩
            · rfl
            · rcases xs with _ | ⟨x2, xs2⟩
              · exact absurd rfl heq
              · rfl
          · intro p hp
            rw [List.mem_map] at hp
            obtain ⟨x, hxx, rfl⟩ := hp
            exact ⟨hxx, List.mem_cons_self _ _⟩
        · simp at h1

theorem bZip2_some (f : ℚ → ℚ → ℚ) (a b : List (List ℚ))
    (hT : a.length = b.length ∨ a.length = 1 ∨ b.length = 1)
    (hrows : ∀ ra ∈ a, ∀ rb ∈ b,
      ra.length = rb.length ∨ ra.length = 1 ∨ rb.length = 1) :
    ∃ e, bZip2 f a b = some e := by
  obtain ⟨v, hv, hmem⟩ := bAlign_some_mem a b hT
  have hall : ∀ rr ∈ v, ∃ y,
      Option.map (List.map fun p => f p.1 p.2) (bAlign rr.1 rr.2) = some y := by
    intro rr hrr
    obtain ⟨h1, h2⟩ := hmem rr hrr
    obtain ⟨w, hw, hwm⟩ := bAlign_some_mem rr.1 rr.2 (hrows rr.1 h1 rr.2 h2)
    exact ⟨w.map fun p => f p.1 p.2, by rw [hw]; rfl⟩
  obtain ⟨out, hout⟩ := mapM_isSome _ v hall
  refine ⟨out, ?_⟩
  unfold bZip2
  rw [hv]
  show (v.mapM fun rr =>
    Option.map (List.map fun p => f p.1 p.2) (bAlign rr.1 rr.2)) = some out
  exact hout

theorem mem_zip_of_getD {α : Type} (a b : List α) (t : ℕ) (d : α)
    (ha : t < a.length) (hb : t < b.length) :
    (a.getD t d, b.getD t d) ∈ a.zip b := by
  induction a generalizing b t with
  | nil => simp at ha
  | cons x xs ih =>
    cases b with
    | nil => simp at hb
    | cons y ys =>
      cases t with
      | zero =>
        rw [List.zip_cons_cons, List.getD_cons_zero, List.getD_cons_zero]
        exact List.mem_cons_self _ _
      | succ n =>
        rw [List.zip_cons_cons, List.getD_cons_succ, List.getD_cons_succ]
        refine List.mem_cons_of_mem _ (ih ys n ?_ ?_)
        · simp only [List.length_cons] at ha
          omega
        · simp only [List.length_cons] at hb
          omega

theorem bZip2_none_row (f : ℚ → ℚ → ℚ) (a b : List (List ℚ))
    (hlen : a.length = b.length) (ra rb : List ℚ) (hp : (ra, rb) ∈ a.zip b)
    (h1 : ra.length ≠ rb.length) (h2 : ra.length ≠ 1) (h3 : rb.length ≠ 1) :
    bZip2 f a b = none := by
  unfold bZip2
  rw [bAlign_eq_zip a b hlen]
  show ((a.zip b).mapM fun rr =>
    Option.map (List.map fun p => f p.1 p.2) (bAlign rr.1 rr.2)) = none
  refine mapM_eq_none _ _ (ra, rb) hp ?_
  show Option.map (List.map fun p => f p.1 p.2) (bAlign ra rb) = none
  rw [bAlign_none ra rb h1 h2 h3]
  rfl

theorem meanDim0_length (pred : List (List (List ℚ))) :
    (meanDim0 pred).length = stackT pred := by
  simp [meanDim0]

theorem medianDim0_rows (pred : List (List (List ℚ))) :
    ∀ r ∈ medianDim0 pred, r.length = stackD pred := by
  intro r hr
  unfold medianDim0 at hr
  rw [List.mem_map] at hr
  obtain ⟨t, _, rfl⟩ := hr
  simp

theorem medianDim0_getD_length (pred : List (List (List ℚ))) (t : ℕ)
    (ht : t < stackT pred) :
    ((medianDim0 pred).getD t []).length = stackD pred := by
  unfold medianDim0
  rw [getD_map_range _ _ _ _ ht]
  simp

theorem meanDim0_getD_length (pred : List (List (List ℚ))) (t : ℕ)
    (ht : t < stackT pred) :
    ((meanDim0 pred).getD t []).length = stackD pred := by
  unfold meanDim0
  rw [getD_map_range _ _ _ _ ht]
  simp

theorem quantSlice_length (pred : List (List (List ℚ))) (u : ℚ) :
    ((List.range (stackT pred)).map fun t =>
      (List.range (stackD pred)).map fun d =>
        pyroQuantile1 u (sampleAt pred t d)).length = stackT pred := by
  simp

theorem quantSlice_getD_length (pred : List (List (List ℚ))) (u : ℚ) (t : ℕ)
    (ht : t < stackT pred) :
    (((List.range (stackT pred)).map fun tt =>
      (List.range (stackD pred)).map fun d =>
        pyroQuantile1 u (sampleAt pred tt d)).getD t []).length = stackD pred := by
  rw [getD_map_range _ _ _ _ ht]
  simp

theorem quantSlice_mem (pred : List (List (List ℚ))) :
    ((List.range (stackT pred)).map fun t =>
      (List.range (stackD pred)).map fun d =>
        pyroQuantile1 (0.005 : ℚ) (sampleAt pred t d))
      ∈ quantileDim0 M5Data_quantiles pred := by
  unfold quantileDim0
  refine List.mem_map_of_mem _ ?_
  unfold M5Data_quantiles
  exact List.mem_cons_self _ _

theorem eval_crps_none (pred : List (List (List ℚ))) (truth : List (List ℚ))
    (h : stackT pred ≠ truth.length ∨ stackD pred ≠ (truth.headD []).length) :
    eval_crps pred truth = none := by
  have hnc : ¬(stackT pred = truth.length
      ∧ stackD pred = (truth.headD []).length) := by
    intro hcon
    rcases h with h | h
    · exact h hcon.1
    · exact h hcon.2
  have hc : crps_empirical pred truth = none := by
    unfold crps_empirical
    rw [if_neg hnc]
  have hev : eval_crps pred truth
      = (crps_empirical pred truth).bind (fun c => some (flatMean c)) := rfl
  rw [hev, hc]
  rfl

theorem eval_mae_isSome (pred : List (List (List ℚ))) (truth : List (List ℚ))
    (hT : stackT pred = truth.length ∨ stackT pred = 1 ∨ truth.length = 1)
    (hD : ∀ rb ∈ truth,
      stackD pred = rb.length ∨ stackD pred = 1 ∨ rb.length = 1) :
    ∃ v, eval_mae pred truth = some v := by
  obtain ⟨e, he⟩ := bZip2_some (fun x y => x - y) (medianDim0 pred) truth
    (by rw [medianDim0_length]; exact hT)
    (fun ra hra rb hrb => by rw [medianDim0_rows pred ra hra]; exact hD rb hrb)
  refine ⟨flatMean (e.map (List.map fun x => |x|)), ?_⟩
  have hev : eval_mae pred truth
      = (bZip2 (fun x y => x - y) (medianDim0 pred) truth).bind
        (fun e => some (flatMean (e.map (List.map fun x => |x|)))) := rfl
  rw [hev, he, Option.some_bind]

theorem eval_rmse_isSome (pred : List (List (List ℚ))) (truth : List (List ℚ))
    (hT : stackT pred = truth.length ∨ stackT pred = 1 ∨ truth.length = 1)
    (hD : ∀ rb ∈ truth,
      stackD pred = rb.length ∨ stackD pred = 1 ∨ rb.length = 1) :
    ∃ v, eval_rmse pred truth = some v := by
  obtain ⟨e, he⟩ := bZip2_some (fun x y => x - y) (meanDim0 pred) truth
    (by rw [meanDim0_length]; exact hT)
    (fun ra hra rb hrb => by rw [meanDim0_rows pred ra hra]; exact hD rb hrb)
  refine ⟨Real.sqrt ((flatMean (e.map (List.map fun x => x * x)) : ℚ) : ℝ), ?_⟩
  have hev : eval_rmse pred truth
      = (bZip2 (fun x y => x - y) (meanDim0 pred) truth).bind
        (fun e => some (Real.sqrt
          ((flatMean (e.map (List.map fun x => x * x)) : ℚ) : ℝ))) := rfl
  rw [hev, he, Option.some_bind]

theorem eval_pl_isSome (pred : List (List (List ℚ))) (truth : List (List ℚ))
    (hT : stackT pred = truth.length ∨ stackT pred = 1 ∨ truth.length = 1)
    (hD : ∀ rb ∈ truth,
      stackD pred = rb.length ∨ stackD pred = 1 ∨ rb.length = 1) :
    ∃ v, eval_pl pred truth = some v := by
  have hall : ∀ sl ∈ quantileDim0 M5Data_quantiles pred,
      ∃ y, bZip2 (fun x y => x - y) sl truth = some y := by
    intro sl hsl
    unfold quantileDim0 at hsl
    rw [List.mem_map] at hsl
    obtain ⟨u, _, rfl⟩ := hsl
    refine bZip2_some _ _ _ ?_ ?_
    · rw [List.length_map, List.length_range]
      exact hT
    · intro ra hra rb hrb
      rw [List.mem_map] at hra
      obtain ⟨t, _, rfl⟩ := hra
      rw [List.length_map, List.length_range]
      exact hD rb hrb
  obtain ⟨errs, herrs⟩ := mapM_isSome _ _ hall
  refine ⟨flatMean (meanStack ((M5Data_quantiles.zip errs).map fun ue =>
    ue.2.map (List.map fun x => (if x ≤ 0 then -ue.1 else 1 - ue.1) * x))), ?_⟩
  have hev : eval_pl pred truth
      = ((quantileDim0 M5Data_quantiles pred).mapM fun sl =>
          bZip2 (fun x y => x - y) sl truth).bind
        (fun errs => some (flatMean (meanStack
          ((M5Data_quantiles.zip errs).map fun ue =>
            ue.2.map (List.map fun x =>
              (if x ≤ 0 then -ue.1 else 1 - ue.1) * x))))) := rfl
  rw [hev, herrs, Option.some_bind]

theorem eval_mae_none_time (pred : List (List (List ℚ)))
    (truth : List (List ℚ)) (h1 : stackT pred ≠ truth.length)
    (h2 : stackT pred ≠ 1) (h3 : truth.length ≠ 1) :
    eval_mae pred truth = none := by
  have hb : bZip2 (fun x y => x - y) (medianDim0 pred) truth = none := by
    refine bZip2_none _ _ _ ?_ ?_ h3 <;> rw [medianDim0_length] <;> assumption
  simp [eval_mae, hb]

theorem eval_rmse_none_time (pred : List (List (List ℚ)))
    (truth : List (List ℚ)) (h1 : stackT pred ≠ truth.length)
    (h2 : stackT pred ≠ 1) (h3 : truth.length ≠ 1) :
    eval_rmse pred truth = none := by
  have hb : bZip2 (fun x y => x - y) (meanDim0 pred) truth = none := by
    refine bZip2_none _ _ _ ?_ ?_ h3 <;> rw [meanDim0_length] <;> assumption
  simp [eval_rmse, hb]

theorem eval_pl_none_time (pred : List (List (List ℚ)))
    (truth : List (List ℚ)) (h1 : stackT pred ≠ truth.length)
    (h2 : stackT pred ≠ 1) (h3 : truth.length ≠ 1) :
    eval_pl pred truth = none := by
  have hb : bZip2 (fun x y => x - y)
      ((List.range (stackT pred)).map fun t =>
        (List.range (stackD pred)).map fun d =>
          pyroQuantile1 (0.005 : ℚ) (sampleAt pred t d)) truth = none := by
    refine bZip2_none _ _ _ ?_ ?_ h3 <;> rw [quantSlice_length] <;> assumption
  have hm : ((quantileDim0 M5Data_quantiles pred).mapM fun sl =>
      bZip2 (fun x y => x - y) sl truth) = none :=
    mapM_eq_none _ _ _ (quantSlice_mem pred) hb
  have hev : eval_pl pred truth
      = ((quantileDim0 M5Data_quantiles pred).mapM fun sl =>
          bZip2 (fun x y => x - y) sl truth).bind
        (fun errs => some (flatMean (meanStack
          ((M5Data_quantiles.zip errs).map fun ue =>
            ue.2.map (List.map fun x =>
              (if x ≤ 0 then -ue.1 else 1 - ue.1) * x))))) := rfl
  rw [hev, hm]
  rfl

theorem eval_mae_none_chan (pred : List (List (List ℚ)))
    (truth : List (List ℚ)) (t : ℕ) (hlen : stackT pred = truth.length)
    (ht : t < truth.length) (h1 : stackD pred ≠ (truth.getD t []).length)
    (h2 : stackD pred ≠ 1) (h3 : (truth.getD t []).length ≠ 1) :
    eval_mae pred truth = none := by
  have hmlen : (medianDim0 pred).length = truth.length := by
    rw [medianDim0_length]
    exact hlen
  have htm : t < (medianDim0 pred).length := by omega
  have hb : bZip2 (fun x y => x - y) (medianDim0 pred) truth = none := by
    refine bZip2_none_row _ _ _ hmlen _ _
      (mem_zip_of_getD _ _ t [] htm ht) ?_ ?_ h3
    · rw [medianDim0_getD_length pred t (by omega)]
      exact h1
    · rw [medianDim0_getD_length pred t (by omega)]
      exact h2
  simp [eval_mae, hb]

theorem eval_rmse_none_chan (pred : List (List (List ℚ)))
    (truth : List (List ℚ)) (t : ℕ) (hlen : stackT pred = truth.length)
    (ht : t < truth.length) (h1 : stackD pred ≠ (truth.getD t []).length)
    (h2 : stackD pred ≠ 1) (h3 : (truth.getD t []).length ≠ 1) :
    eval_rmse pred truth = none := by
  have hmlen : (meanDim0 pred).length = truth.length := by
    rw [meanDim0_length]
    exact hlen
  have htm : t < (meanDim0 pred).length := by omega
  have hb : bZip2 (fun x y => x - y) (meanDim0 pred) truth = none := by
    refine bZip2_none_row _ _ _ hmlen _ _
      (mem_zip_of_getD _ _ t [] htm ht) ?_ ?_ h3
    · rw [meanDim0_getD_length pred t (by omega)]
      exact h1
    · rw [meanDim0_getD_length pred t (by omega)]
      exact h2
  simp [eval_rmse, hb]

theorem eval_pl_none_chan (pred : List (List (List ℚ)))
    (truth : List (List ℚ)) (t : ℕ) (hlen : stackT pred = truth.length)
    (ht : t < truth.length) (h1 : stackD pred ≠ (truth.getD t []).length)
    (h2 : stackD pred ≠ 1) (h3 : (truth.getD t []).length ≠ 1) :
    eval_pl pred truth = none := by
  have hslen : ((List.range (stackT pred)).map fun tt =>
      (List.range (stackD pred)).map fun d =>
        pyroQuantile1 (0.005 : ℚ) (sampleAt pred tt d)).length = truth.length := by
    rw [quantSlice_length]
    exact hlen
  have htm : t < ((List.range (stackT pred)).map fun tt =>
      (List.range (stackD pred)).map fun d =>
        pyroQuantile1 (0.005 : ℚ) (sampleAt pred tt d)).length := by omega
  have hb : bZip2 (fun x y => x - y)
      ((List.range (stackT pred)).map fun tt =>
        (List.range (stackD pred)).map fun d =>
          pyroQuantile1 (0.005 : ℚ) (sampleAt pred tt d)) truth = none := by
    refine bZip2_none_row _ _ _ hslen _ _
      (mem_zip_of_getD _ _ t [] htm ht) ?_ ?_ h3
    · rw [quantSlice_getD_length pred _ t (by omega)]
      exact h1
    · rw [quantSlice_getD_length pred _ t (by omega)]
      exact h2
  have hm : ((quantileDim0 M5Data_quantiles pred).mapM fun sl =>
      bZip2 (fun x y => x - y) sl truth) = none :=
    mapM_eq_none _ _ _ (quantSlice_mem pred) hb
  have hev : eval_pl pred truth
      = ((quantileDim0 M5Data_quantiles pred).mapM fun sl =>
          bZip2 (fun x y => x - y) sl truth).bind
        (fun errs => some (flatMean (meanStack
          ((M5Data_quantiles.zip errs).map fun ue =>
            ue.2.map (List.map fun x =>
              (if x ≤ 0 then -ue.1 else 1 - ue.1) * x))))) := rfl
  rw [hev, hm]
  rfl

/-- Claim C6 (amended): `m5_backtest` fails with an assertion error before
any computation whenever the weight vector's shape does not equal the
data's shape with the last axis dropped.  Among the metric functions only
CRPS fails fast on mismatched trailing axes, because the library function
`crps_empirical` demands that the prediction's trailing shape equal the
truth's exactly; MAE, RMSE and pinball loss perform no shape validation of
their own: mismatched trailing axes are silently broadcast (a value is
returned) whenever each unequal axis pair has size 1 on one side, and each
of the three fails only at the broadcasting step, when a duration-axis pair
or a channel-axis pair is neither equal nor of size 1. -/
theorem C6_shape_error_handling :
    (∀ (data : List (List ℚ)) (weight : List ℚ) (mIn : Option (List String))
      (tIn : Option ℕ) (wins : List WindowIn),
      weight.length ≠ data.length →
      m5_backtest data (some weight) mIn tIn wins = none) ∧
    (∀ (pred : List (List (List ℚ))) (truth : List (List ℚ)),
      stackT pred ≠ truth.length ∨ stackD pred ≠ (truth.headD []).length →
      eval_crps pred truth = none) ∧
    (∀ (pred : List (List (List ℚ))) (truth : List (List ℚ)),
      (stackT pred = truth.length ∨ stackT pred = 1 ∨ truth.length = 1) →
      (∀ rb ∈ truth,
        stackD pred = rb.length ∨ stackD pred = 1 ∨ rb.length = 1) →
      (∃ v, eval_mae pred truth = some v) ∧
      (∃ v, eval_rmse pred truth = some v) ∧
      (∃ v, eval_pl pred truth = some v)) ∧
    (∀ (pred : List (List (List ℚ))) (truth : List (List ℚ)),
      stackT pred ≠ truth.length → stackT pred ≠ 1 → truth.length ≠ 1 →
      eval_mae pred truth = none ∧ eval_rmse pred truth = none ∧
      eval_pl pred truth = none) ∧
    (∀ (pred : List (List (List ℚ))) (truth : List (List ℚ)) (t : ℕ),
      stackT pred = truth.length → t < truth.length →
      stackD pred ≠ (truth.getD t []).length → stackD pred ≠ 1 →
      (truth.getD t []).length ≠ 1 →
      eval_mae pred truth = none ∧ eval_rmse pred truth = none ∧
      eval_pl pred truth = none) := by
  refine ⟨?_, ?_, ?_, ?_, ?_⟩
  · intro data weight mIn tIn wins h
    simp only [m5_backtest, Option.getD_some]
    rw [if_neg h]
  · intro pred truth h
    exact eval_crps_none pred truth h
  · intro pred truth hT hD
    exact ⟨eval_mae_isSome pred truth hT hD, eval_rmse_isSome pred truth hT hD,
      eval_pl_isSome pred truth hT hD⟩
  · intro pred truth h1 h2 h3
    exact ⟨eval_mae_none_time pred truth h1 h2 h3,
      eval_rmse_none_time pred truth h1 h2 h3,
      eval_pl_none_time pred truth h1 h2 h3⟩
  · intro pred truth t hlen ht h1 h2 h3
    exact ⟨eval_mae_none_chan pred truth t hlen ht h1 h2 h3,
      eval_rmse_none_chan pred truth t hlen ht h1 h2 h3,
      eval_pl_none_chan pred truth t hlen ht h1 h2 h3⟩

/-- Witness for C6 at concrete shapes: a weight-length mismatch aborts the
backtest, a trailing-shape mismatch aborts CRPS, broadcast-compatible
mismatched shapes give MAE and pinball-loss values, and non-broadcastable
duration or channel axes abort MAE, RMSE and pinball loss. -/
theorem C6_witness :
    m5_backtest [[1]] (some [1, 2]) none none [] = none ∧
    eval_crps [[[1], [2]]] [[1]] = none ∧
    (eval_mae [[[1, 2]]] [[1], [1]]).isSome = true ∧
    (eval_pl [[[1, 2]]] [[1], [1]]).isSome = true ∧
    eval_mae [[[1], [2]]] ([[1], [1], [1]] : List (List ℚ)) = none ∧
    eval_rmse [[[1], [2]]] ([[1], [1], [1]] : List (List ℚ)) = none ∧
    eval_pl [[[1, 2], [3, 4]]] ([[1, 1, 1], [2, 2, 2]] : List (List ℚ)) = none := by
  refine ⟨C6_shape_error_handling.1 [[1]] [1, 2] none none [] (by decide),
    C6_shape_error_handling.2.1 [[[1], [2]]] [[1]] (Or.inl (by decide)), ?_, ?_,
    (C6_shape_error_handling.2.2.2.1 [[[1], [2]]] [[1], [1], [1]] (by decide)
      (by decide) (by decide)).1,
    (C6_shape_error_handling.2.2.2.1 [[[1], [2]]] [[1], [1], [1]] (by decide)
      (by decide) (by decide)).2.1,
    (C6_shape_error_handling.2.2.2.2 [[[1, 2], [3, 4]]] [[1, 1, 1], [2, 2, 2]] 0
      (by decide) (by decide) (by decide) (by decide) (by decide)).2.2⟩
  · obtain ⟨v, hv⟩ := (C6_shape_error_handling.2.2.1 [[[1, 2]]] [[1], [1]]
      (by decide) (by decide)).1
    rw [hv]
    rfl
  · obtain ⟨v, hv⟩ := (C6_shape_error_handling.2.2.1 [[[1, 2]]] [[1], [1]]
      (by decide) (by decide)).2.2
    rw [hv]
    rfl
